import Mathlib

/-!
Shallow embedding of the CCADB certificate table converter
(`convert.py`) and proofs about its canonicalization and
hierarchy-trust-propagation logic.

Conventions:
* Python raised exceptions are modelled as `Except.error` with a message
  naming the exception; Python `None` is `Option.none`.
* Python `dict` is an association list with first-match lookup and
  in-place overwrite on insert (insertion order preserved, as in CPython).
* Python `set` is a duplicate-free list in insertion order; iteration
  order of a CPython set is unspecified, and no proved statement depends
  on the order chosen here.
* The propagation `while` loop is given explicit fuel; `none` means the
  fuel ran out, `some r` is the loop's result.
-/

namespace CCADB

/-- Model of Python `str.upper` restricted to ASCII (the compared tokens
in the source are ASCII). -/
def pyUpper (s : String) : String :=
  String.mk (s.data.map Char.toUpper)

/-- Model of Python `str.lower` restricted to ASCII. -/
def pyLower (s : String) : String :=
  String.mk (s.data.map Char.toLower)

/-- Model of Python `str.capitalize`: first character uppercased, rest
lowercased. -/
def pyCapitalize (s : String) : String :=
  match s.data with
  | [] => ""
  | c :: rest => String.mk (Char.toUpper c :: rest.map Char.toLower)

/-- Model of Python `str.isascii`. -/
def isAsciiStr (s : String) : Bool :=
  s.data.all (fun c => decide (c.toNat < 128))

/-- Model of Python `str.replace('.', '-')` (single-character pattern and
replacement, hence a character-wise map). -/
def pyDotToDash (s : String) : String :=
  String.mk (s.data.map (fun c => if c = '.' then '-' else c))

/-- Number of newline characters in a string (Python `s.count('\n')`). -/
def countNewlines (s : String) : Nat :=
  s.data.count '\n'

/-- Model of Python `list.insert(i, v)`: clamps the index like Python. -/
def pyInsert {α : Type} (l : List α) (i : Nat) (v : α) : List α :=
  l.take i ++ v :: l.drop i

/-- Model of Python `list.pop(i)` minus the returned value: the list with
the element at index `i` removed. Callers check the index themselves. -/
def pyRemoveAt {α : Type} (l : List α) (i : Nat) : List α :=
  l.take i ++ l.drop (i + 1)

/-- The in-memory certificate node, from `class CACertificate`
(convert.py line 188). -/
structure CACertificate where
  is_root : Bool
  is_trusted : Option Bool
  children : List String
deriving DecidableEq, Repr

/-- `cert_by_sfid`: a Python dict modelled as an association list. -/
abbrev CertMap := List (String × CACertificate)

/-- Python `d[k]` as an option (first matching entry). -/
def lookupCert (m : CertMap) (k : String) : Option CACertificate :=
  match m with
  | [] => none
  | (k', v) :: rest => if k' = k then some v else lookupCert rest k

/-- Python `d[k] = v`: overwrite in place if present, else append. -/
def insertCert (m : CertMap) (k : String) (v : CACertificate) : CertMap :=
  match m with
  | [] => [(k, v)]
  | (k', v') :: rest =>
      if k' = k then (k', v) :: rest else (k', v') :: insertCert rest k v

/-- Mutate the entry at key `k` in place (no-op when absent; all call
sites in the source have checked or established presence). -/
def modifyCert (m : CertMap) (k : String) (f : CACertificate → CACertificate) : CertMap :=
  match m with
  | [] => []
  | (k', v') :: rest =>
      if k' = k then (k', f v') :: rest else (k', v') :: modifyCert rest k f

/-- Children list of a node, empty when the id is unknown. -/
def childrenOf (m : CertMap) (k : String) : List String :=
  match lookupCert m k with
  | some c => c.children
  | none => []

/-- Trust value of a node, `none` when the id is unknown. -/
def trustOf (m : CertMap) (k : String) : Option Bool :=
  match lookupCert m k with
  | some c => c.is_trusted
  | none => none

def indexErrMsg : String := "IndexError: list index out of range"

def keyErrMsg : String := "KeyError"

/-- State accumulated by pass 1 (convert.py lines 196-215). -/
structure Pass1State where
  cert_by_sfid : CertMap
  cert_forest_edges : List (String × String)
  num_records : Nat
deriving Repr

/-- `is_trusted = any(e.capitalize() == 'Included' for e in row[7:11])`
(convert.py line 211). Python slices never raise. -/
def isTrustedOfRow (row : List String) : Bool :=
  ((row.drop 7).take 4).any (fun e => decide (pyCapitalize e = "Included"))

/-- One iteration of the pass-1 loop body (convert.py lines 204-215).
Unguarded indexing of `row[1]`, `row[3]`, `row[5]` models Python's
IndexError on short rows; `row[7:11]` is a slice and never raises. -/
def pass1Step (st : Pass1State) (row : List String) : Except String Pass1State :=
  match row[1]? with
  | none => .error indexErrMsg
  | some sfid =>
    match row[3]? with
    | none => .error indexErrMsg
    | some parent_sfid =>
      match row[5]? with
      | none => .error indexErrMsg
      | some ty =>
        let is_root : Bool := decide (ty = "Root Certificate")
        let is_trusted : Option Bool :=
          if is_root then some (isTrustedOfRow row) else none
        .ok { cert_by_sfid :=
                insertCert st.cert_by_sfid sfid
                  { is_root := is_root, is_trusted := is_trusted, children := [] },
              cert_forest_edges := st.cert_forest_edges ++ [(parent_sfid, sfid)],
              num_records := st.num_records + 1 }

/-- Pass 1 over the whole CSV, header row included (the source's pass-1
loop does not skip the header). -/
def pass1 (rows : List (List String)) : Except String Pass1State :=
  rows.foldlM pass1Step { cert_by_sfid := [], cert_forest_edges := [], num_records := 0 }

/-- State of the forest-building loop (convert.py lines 219-223). -/
structure ForestState where
  cert_by_sfid : CertMap
  cert_forest_roots : List String
deriving Repr

/-- `children.add(child)`: set insertion, no-op on duplicates. -/
def addChild (c : CACertificate) (child : String) : CACertificate :=
  if child ∈ c.children then c else { c with children := c.children ++ [child] }

/-- One edge of the forest-building loop (convert.py lines 219-223). -/
def buildForestStep (fs : ForestState) (e : String × String) : ForestState :=
  if (lookupCert fs.cert_by_sfid e.1).isSome then
    { fs with cert_by_sfid := modifyCert fs.cert_by_sfid e.1 (fun c => addChild c e.2) }
  else
    { fs with cert_forest_roots :=
        if e.2 ∈ fs.cert_forest_roots then fs.cert_forest_roots
        else fs.cert_forest_roots ++ [e.2] }

/-- The forest-building loop over all recorded edges. -/
def buildForest (certs : CertMap) (edges : List (String × String)) : ForestState :=
  edges.foldl buildForestStep { cert_by_sfid := certs, cert_forest_roots := [] }

def loopErrMsg : String := "loop detected while CA tree walk"

/-- The inner `for child_sfid in next_children` loop (convert.py lines
232-234): each non-root child's trust is set to the parent's current
trust, re-read from the map on every iteration. -/
def assignChildren (certs : CertMap) (parent : String) : List String → Except String CertMap
  | [] => .ok certs
  | c :: rest =>
    match lookupCert certs c with
    | none => .error keyErrMsg
    | some ccert =>
      if ccert.is_root then assignChildren certs parent rest
      else
        match lookupCert certs parent with
        | none => .error keyErrMsg
        | some pcert =>
            assignChildren
              (modifyCert certs c (fun cc => { cc with is_trusted := pcert.is_trusted }))
              parent rest

/-- The propagation `while hier_stack:` loop (convert.py lines 226-239).
The head of `stack` is Python's `hier_stack[-1]` (top frame); frames are
consumed from their last element, as `.pop()` does. `none` = out of
fuel. -/
def propagateAux : Nat → CertMap → List (List String) → Option (Except String CertMap)
  | 0, _, _ => none
  | _ + 1, certs, [] => some (.ok certs)
  | fuel + 1, certs, frame :: rest =>
    if (frame :: rest).length > 7 then some (.error loopErrMsg)
    else
      match frame.getLast? with
      | none => propagateAux fuel certs rest
      | some sfid =>
        match lookupCert certs sfid with
        | none => some (.error keyErrMsg)
        | some cert =>
          let nc := cert.children
          match assignChildren certs sfid nc with
          | .error e => some (.error e)
          | .ok certs' =>
            if nc.isEmpty then propagateAux fuel certs' (frame.dropLast :: rest)
            else propagateAux fuel certs' (nc :: frame.dropLast :: rest)

/-- `hier_stack = [list(cert_forest_roots)]` followed by the walk
(convert.py lines 225-239). -/
def propagate (certs : CertMap) (roots : List String) (fuel : Nat) :
    Option (Except String CertMap) :=
  propagateAux fuel certs [roots]

/-! ### Value canonicalization (second pass) -/

/-- A cell of a canonical output row: Python puts strings, booleans,
ints and `None` into the same list. -/
inductive Cell where
  | str (s : String)
  | bool (b : Bool)
  | int (n : Nat)
  | null
deriving DecidableEq, Repr

/-- `Option Bool` written into a cell: `None` or a Python bool. -/
def cellOfTrust : Option Bool → Cell
  | none => Cell.null
  | some b => Cell.bool b

/-- Read `row[i]` expecting a string cell (AttributeError/TypeError on a
non-string, IndexError when out of range). -/
def getStr (r : List Cell) (i : Nat) : Except String String :=
  match r[i]? with
  | some (Cell.str s) => .ok s
  | some _ => .error "TypeError"
  | none => .error indexErrMsg

/-- Read `row[i]` as a cell (IndexError when out of range). -/
def getCell (r : List Cell) (i : Nat) : Except String Cell :=
  match r[i]? with
  | some c => .ok c
  | none => .error indexErrMsg

/-- `row[i] = (row[i].upper() == 'TRUE')` (convert.py lines 70-86). -/
def boolify (r : List Cell) (i : Nat) : Except String (List Cell) := do
  let s ← getStr r i
  pure (r.set i (Cell.bool (decide (pyUpper s = "TRUE"))))

/-- `row[i] = row[i].replace('.', '-')` (convert.py lines 96-146). -/
def dateify (r : List Cell) (i : Nat) : Except String (List Cell) := do
  let s ← getStr r i
  pure (r.set i (Cell.str (pyDotToDash s)))

/-- Value of a standard base64 alphabet character. -/
def b64Val (c : Char) : Option Nat :=
  if 'A' ≤ c ∧ c ≤ 'Z' then some (c.toNat - 'A'.toNat)
  else if 'a' ≤ c ∧ c ≤ 'z' then some (c.toNat - 'a'.toNat + 26)
  else if '0' ≤ c ∧ c ≤ '9' then some (c.toNat - '0'.toNat + 52)
  else if c = '+' then some 62
  else if c = '/' then some 63
  else none

/-- Decode one base64 quantum of 2-4 data characters into 1-3 bytes. -/
def b64Group : List Nat → List Nat
  | [a, b] => [(a * 4 + b / 16) % 256]
  | [a, b, c] => [(a * 4 + b / 16) % 256, (b % 16 * 16 + c / 4) % 256]
  | [a, b, c, d] => [(a * 4 + b / 16) % 256, (b % 16 * 16 + c / 4) % 256, (c % 4 * 64 + d) % 256]
  | _ => []

def b64Chunks : List Nat → List Nat
  | a :: b :: c :: d :: rest => b64Group [a, b, c, d] ++ b64Chunks rest
  | last => b64Group last

/-- Model of Python `base64.b64decode` (validate=False): characters
outside the alphabet and `=` are discarded, the padded length must be a
multiple of four, and the result is the byte list. -/
def b64decode (s : String) : Except String (List Nat) :=
  let kept := s.data.filter (fun c => (b64Val c).isSome ∨ c = '=')
  let content := kept.filter (fun c => (b64Val c).isSome)
  if kept.length % 4 = 0 then
    .ok (b64Chunks (content.filterMap b64Val))
  else
    .error "binascii.Error: Invalid base64-encoded string"

def hexDigit (n : Nat) : Char :=
  if n < 10 then Char.ofNat ('0'.toNat + n) else Char.ofNat ('a'.toNat + n - 10)

/-- Python `bytes.hex(':')`: two lowercase hex digits per byte, joined
by colons. -/
def hexColon (bytes : List Nat) : String :=
  String.intercalate ":"
    (bytes.map (fun b => String.mk [hexDigit (b / 16), hexDigit (b % 16)]))

/-- `if row[i] != '': row[i] = b64decode(row[i]).hex(':')` (convert.py
lines 89-93). -/
def hexify (r : List Cell) (i : Nat) : Except String (List Cell) := do
  let s ← getStr r i
  if s = "" then pure r
  else do
    let bytes ← b64decode s
    pure (r.set i (Cell.str (hexColon bytes)))

/-- One JSON escape sequence after a backslash. -/
def jsonEscape (c : Char) : Option Char :=
  if c = '"' then some '"'
  else if c = '\\' then some '\\'
  else if c = '/' then some '/'
  else if c = 'b' then some (Char.ofNat 8)
  else if c = 'f' then some (Char.ofNat 12)
  else if c = 'n' then some '\n'
  else if c = 'r' then some (Char.ofNat 13)
  else if c = 't' then some (Char.ofNat 9)
  else none

def hexCharVal (c : Char) : Option Nat :=
  if '0' ≤ c ∧ c ≤ '9' then some (c.toNat - '0'.toNat)
  else if 'a' ≤ c ∧ c ≤ 'f' then some (c.toNat - 'a'.toNat + 10)
  else if 'A' ≤ c ∧ c ≤ 'F' then some (c.toNat - 'A'.toNat + 10)
  else none

/-- Body of a JSON string after the opening quote; returns the decoded
characters and the input after the closing quote. -/
def jsonStringBody : List Char → Option (List Char × List Char)
  | [] => none
  | c :: rest =>
    if c = '"' then some ([], rest)
    else if c = '\\' then
      match rest with
      | [] => none
      | 'u' :: h1 :: h2 :: h3 :: h4 :: rest' =>
        match hexCharVal h1, hexCharVal h2, hexCharVal h3, hexCharVal h4 with
        | some a, some b, some c', some d =>
          match jsonStringBody rest' with
          | some (cs, rem) => some (Char.ofNat (a * 4096 + b * 256 + c' * 16 + d) :: cs, rem)
          | none => none
        | _, _, _, _ => none
      | e :: rest' =>
        match jsonEscape e with
        | some ch =>
          match jsonStringBody rest' with
          | some (cs, rem) => some (ch :: cs, rem)
          | none => none
        | none => none
    else
      match jsonStringBody rest with
      | some (cs, rem) => some (c :: cs, rem)
      | none => none

def jsonWs (l : List Char) : List Char :=
  l.dropWhile (fun c => c = ' ' ∨ c = '\n' ∨ c = '\t' ∨ c = Char.ofNat 13)

/-- Elements of a JSON array of strings, after the opening bracket and a
possible first element. `fuel` bounds the element count. -/
def jsonArrayElems (fuel : Nat) (first : Bool) (l : List Char) :
    Option (List String × List Char) :=
  match fuel with
  | 0 => none
  | fuel + 1 =>
    match jsonWs l with
    | ']' :: rest => some ([], rest)
    | ',' :: rest =>
      if first then none
      else
        match jsonWs rest with
        | '"' :: rest' =>
          match jsonStringBody rest' with
          | some (cs, rem) =>
            match jsonArrayElems fuel false rem with
            | some (ss, rem') => some (String.mk cs :: ss, rem')
            | none => none
          | none => none
        | _ => none
    | '"' :: rest' =>
      if first then
        match jsonStringBody rest' with
        | some (cs, rem) =>
          match jsonArrayElems fuel false rem with
          | some (ss, rem') => some (String.mk cs :: ss, rem')
          | none => none
        | none => none
      else none
    | _ => none

/-- Model of `json.loads` restricted to the shape `canonicalize` feeds
to `'\n'.join`: a JSON array of strings. Any other JSON value makes the
join (or the parse) raise, modelled as an error. -/
def parseJsonStringArray (s : String) : Except String (List String) :=
  match jsonWs s.data with
  | '[' :: rest =>
    match jsonArrayElems (s.data.length + 1) true rest with
    | some (ss, rem) => if jsonWs rem = [] then .ok ss else .error "json.JSONDecodeError"
    | none => .error "json.JSONDecodeError"
  | _ => .error "json.JSONDecodeError"

def boolIdxs : List Nat := [19, 24, 62, 65, 68, 74, 75, 76, 77]

def dateIdxs : List Nat :=
  [15, 16, 27, 28, 29, 32, 33, 34, 37, 38, 39, 42, 43, 44, 47, 48, 49,
   52, 53, 54, 57, 58, 59, 64, 67, 70]

/-- The `canonicalize(row)` function (convert.py lines 68-150): boolean
coercions, base64-to-hex re-encodings, date separator normalization, and
the JSON array join. -/
def canonicalize (row : List String) : Except String (List Cell) := do
  let r ← boolIdxs.foldlM boolify (row.map Cell.str)
  let r ← hexify r 17
  let r ← hexify r 18
  let r ← dateIdxs.foldlM dateify r
  let s22 ← getStr r 22
  if s22 = "" then pure r
  else do
    let items ← parseJsonStringArray s22
    pure (r.set 22 (Cell.str (String.intercalate "\n" items)))

/-! ### Country resolver -/

/-- The static data of the external `countrycode` package, abstracted:
`exact` is `countrycode.countrycode(name, origin='country.name',
destination='iso2c')` (None for no match), `shortLists` are the
`cldr.short.*` columns of `countrycode.codelist` in key-iteration order,
and `iso2c` is the `iso2c` column. -/
structure CountryTable where
  exact : String → Option String
  shortLists : List (List String)
  iso2c : List String

/-- Result of the fallback scan over one or more short-name lists. -/
inductive ScanResult where
  | found (code : String)
  | exn
  | notFound
deriving DecidableEq, Repr

/-- The inner `for pos, candidate_name in enumerate(...)` loop
(convert.py lines 62-64); `.exn` models the IndexError when
`codelist['iso2c'][pos]` is out of range. -/
def scanShortList (iso2c : List String) (name : String) : List String → Nat → ScanResult
  | [], _ => .notFound
  | c :: rest, pos =>
    if pyLower c = pyLower name then
      match iso2c[pos]? with
      | some code => .found code
      | none => .exn
    else scanShortList iso2c name rest (pos + 1)

/-- The outer `for fromcode in ...` loop (convert.py line 61). -/
def scanShortLists (iso2c : List String) (name : String) : List (List String) → ScanResult
  | [] => .notFound
  | l :: ls =>
    match scanShortList iso2c name l 0 with
    | .found code => .found code
    | .exn => .exn
    | .notFound => scanShortLists iso2c name ls

/-- `get_country_code` (convert.py lines 51-65). `none` models a raised
exception; `some code` is the returned string. Python's truthiness test
`if candidate:` is false for both `None` and `''`. -/
def get_country_code (tbl : CountryTable) (country_name : String) : Option String :=
  if country_name.length = 2 ∧ isAsciiStr country_name then some country_name
  else
    let fallback :=
      match scanShortLists tbl.iso2c country_name tbl.shortLists with
      | .found code => some code
      | .exn => none
      | .notFound => some ""
    match tbl.exact country_name with
    | some c => if c = "" then fallback else some c
    | none => fallback

/-! ### Second pass (canonical record emission, convert.py lines 395-464) -/

/-- The message of the width check (convert.py line 415). -/
def widthErrMsg (n rowNo : Nat) : String :=
  "unexpected number of rows " ++ toString n ++ " at CSV line " ++ toString rowNo

/-- Processing of one data row in pass 2 (convert.py lines 413-439):
width check, `canonicalize`, the country-column move and resolution, the
crt.sh link, the partitioned-CRL count, and the two trust columns. The
styling/formatting of the emitted cells (lines 440-462) is presentation
and out of the modelled core. -/
def pass2Row (certs : CertMap) (tbl : CountryTable) (rowNo : Nat) (row : List String) :
    Except String (List Cell) := do
  if row.length ≠ 81 then throw (widthErrMsg row.length rowNo)
  let r ← canonicalize row
  let moved ← getCell r 78
  let r := pyRemoveAt r 78 ++ [moved]
  let s80 ← getStr r 80
  let code ← match get_country_code tbl s80 with
    | none => throw indexErrMsg
    | some code => pure code
  let r := r ++ [Cell.str code]
  let s13 ← getStr r 13
  let r := r ++ [Cell.str ("https://crt.sh/?sha256=" ++ s13)]
  let s22 ← getStr r 22
  let r :=
    if s22 ≠ "" then pyInsert r 23 (Cell.int (countNewlines s22 + 1))
    else pyInsert r 23 (Cell.str "")
  let s5 ← getStr r 5
  let r ←
    if s5 = "Intermediate Certificate" then do
      let s1 ← getStr r 1
      match lookupCert certs s1 with
      | none => throw keyErrMsg
      | some c => pure (pyInsert r 12 (cellOfTrust c.is_trusted))
    else pure (pyInsert r 12 Cell.null)
  let included ← do
    let s7 ← getStr r 7
    let s8 ← getStr r 8
    let s9 ← getStr r 9
    let s10 ← getStr r 10
    pure ([s7, s8, s9, s10].any (fun e => decide (pyCapitalize e = "Included")))
  pure (pyInsert r 12 (Cell.bool included))

/-- The `for row_no, row in enumerate(csv_reader, 2)` loop over the data
rows (convert.py line 413). -/
def pass2Rows (certs : CertMap) (tbl : CountryTable) : Nat → List (List String) →
    Except String (List (List Cell))
  | _, [] => .ok []
  | rowNo, row :: rest => do
    let r ← pass2Row certs tbl rowNo row
    let rs ← pass2Rows certs tbl (rowNo + 1) rest
    pure (r :: rs)

/-- The header rewrite of pass 2 (convert.py lines 398-404): two appended
column names, the country-column move, and three inserted derived
column names. `list.pop(78)` raises IndexError on a short header. -/
def transformHeader (header : List String) : Except String (List String) := do
  let h := header ++ ["X-Country (alpha-2)", "X-crt.sh link"]
  let moved ← match h[78]? with
    | some v => pure v
    | none => throw indexErrMsg
  let h := pyInsert (pyRemoveAt h 78) 80 moved
  let h := pyInsert h 23 "X-Number of items in \"JSON Array of Partitioned CRLs\""
  let h := pyInsert h 12 "X-Chains up to Roots Included in any Root Store?"
  let h := pyInsert h 12 "X-Included in any Root Store?"
  pure h

/-- All of pass 2: `header = next(csv_reader)` consumes the first row
(StopIteration on an empty file), the header is rewritten, and only the
remaining rows are processed as data. -/
def pass2Full (certs : CertMap) (tbl : CountryTable) (rows : List (List String)) :
    Except String (List String × List (List Cell)) :=
  match rows with
  | [] => .error "StopIteration"
  | header :: rest => do
    let h ← transformHeader header
    let out ← pass2Rows certs tbl 2 rest
    pure (h, out)

/-! ### Specification-side notions used by the theorems -/

/-- `is_root` of a node, `false` for unknown ids. -/
def isRootNode (m : CertMap) (n : String) : Bool :=
  match lookupCert m n with
  | some c => c.is_root
  | none => false

/-- Reachability from the forest roots along `children` edges. -/
inductive Reach (certs : CertMap) (roots : List String) : String → Prop
  | root {r : String} : r ∈ roots → Reach certs roots r
  | child {p c : String} : Reach certs roots p → c ∈ childrenOf certs p → Reach certs roots c

/-- `PathFrom certs a l b`: `l` lists the nodes of a `children`-walk from
`a` to `b`, endpoints included. -/
inductive PathFrom (certs : CertMap) : String → List String → String → Prop
  | refl (n : String) : PathFrom certs n [n] n
  | step {a : String} {l : List String} {b c : String} :
      PathFrom certs a l b → c ∈ childrenOf certs b → PathFrom certs a (l ++ [c]) c

/-- One step of the trust value carried along a path: a root-typed node
re-anchors the value at its own precomputed trust, any other node passes
it on. -/
def nodeSpecStep (certs : CertMap) (v : Option Bool) (m : String) : Option Bool :=
  match lookupCert certs m with
  | some c => if c.is_root then c.is_trusted else v
  | none => v

/-- The trust value the walk should deliver at the end of a path: the
initial trust of the path's head, re-anchored at every root-typed node
passed on the way. -/
def pathSpec (certs : CertMap) : List String → Option Bool
  | [] => none
  | n :: rest => rest.foldl (nodeSpecStep certs) (trustOf certs n)

/-- `k`-fold children expansion of a set of ids (used to bound path
lengths decidably on concrete inputs). -/
def iterFrontier (certs : CertMap) (s : List String) : Nat → List String
  | 0 => s
  | k + 1 => iterFrontier certs (s.flatMap (childrenOf certs)) k

/-- Every child id appearing in the map has an entry of its own. -/
def childClosed (certs : CertMap) : Prop :=
  ∀ e ∈ certs, ∀ c ∈ e.2.children, (lookupCert certs c).isSome = true

/-- `corrAt certs₀ roots m n`: in map `m`, node `n` carries the
specification value of its (unique) path from a forest root. -/
def corrAt (certs₀ : CertMap) (roots : List String) (m : CertMap) (n : String) : Prop :=
  ∀ r ∈ roots, ∀ l, PathFrom certs₀ r l n →
    ∃ c, lookupCert m n = some c ∧ c.is_trusted = pathSpec certs₀ l

/-! ### Concrete inputs used by witnesses and counterexamples -/

/-- Helper: extract the pass-1 state of a run known to succeed. -/
def pass1Of (rows : List (List String)) : Pass1State :=
  match pass1 rows with
  | .ok st => st
  | .error _ => { cert_by_sfid := [], cert_forest_edges := [], num_records := 0 }

/-- Helper: forest state of a pipeline run known to succeed. -/
def forestOf (rows : List (List String)) : ForestState :=
  let st := pass1Of rows
  buildForest st.cert_by_sfid st.cert_forest_edges

/-- Helper: final map of a propagation known to succeed. -/
def finalOf (rows : List (List String)) (fuel : Nat) : CertMap :=
  let fs := forestOf rows
  match propagate fs.cert_by_sfid fs.cert_forest_roots fuel with
  | some (.ok m) => m
  | _ => []

/-- A six-field pass-1 row (shorter than the 81-column schema). -/
def c10row : List String := ["", "id1", "", "p1", "", "x"]

/-- Rows whose edge set is exactly the cycle (A,B), (B,C), (C,A). -/
def cycRows : List (List String) :=
  [["", "B", "", "A", "", "", "", "", "", "", ""],
   ["", "C", "", "B", "", "", "", "", "", "", ""],
   ["", "A", "", "C", "", "", "", "", "", "", ""]]

/-- A cycle A→B→C→A hanging below the forest root R (whose parent P is
unknown); the fifth row re-declares A as a child of C. -/
def reachCycRows : List (List String) :=
  [["", "R", "", "P", "", "", "", "", "", "", ""],
   ["", "A", "", "R", "", "", "", "", "", "", ""],
   ["", "B", "", "A", "", "", "", "", "", "", ""],
   ["", "C", "", "B", "", "", "", "", "", "", ""],
   ["", "A", "", "C", "", "", "", "", "", "", ""]]

/-- A two-node cycle A↔B where A is typed "Root Certificate" and is
included in a root store. -/
def rootCycRows : List (List String) :=
  [["", "B", "", "A", "", "", "", "", "", "", ""],
   ["", "A", "", "B", "", "Root Certificate", "", "Included", "", "", ""]]

/-- An acyclic chain R → c1 → … → c7 of eight nodes. -/
def chain8Rows : List (List String) :=
  [["", "R", "", "P", "", "Root Certificate", "", "Included", "", "", ""],
   ["", "c1", "", "R", "", "", "", "", "", "", ""],
   ["", "c2", "", "c1", "", "", "", "", "", "", ""],
   ["", "c3", "", "c2", "", "", "", "", "", "", ""],
   ["", "c4", "", "c3", "", "", "", "", "", "", ""],
   ["", "c5", "", "c4", "", "", "", "", "", "", ""],
   ["", "c6", "", "c5", "", "", "", "", "", "", ""],
   ["", "c7", "", "c6", "", "", "", "", "", "", ""]]

/-- The same chain cut to seven nodes. -/
def chain7Rows : List (List String) := chain8Rows.take 7

/-- The spec's propagation example: roots A (trusted) and X (untrusted),
with children B, C below A and Y below X. -/
def exPropRows : List (List String) :=
  [["", "A", "", "", "", "Root Certificate", "", "Included", "", "", ""],
   ["", "B", "", "A", "", "", "", "", "", "", ""],
   ["", "C", "", "B", "", "", "", "", "", "", ""],
   ["", "X", "", "", "", "Root Certificate", "", "", "", "", ""],
   ["", "Y", "", "X", "", "", "", "", "", "", ""]]

/-- A chain R → M → L where the middle node M is itself typed
"Root Certificate" but not included anywhere. -/
def rootChildRows : List (List String) :=
  [["", "R", "", "", "", "Root Certificate", "", "Included", "", "", ""],
   ["", "M", "", "R", "", "Root Certificate", "", "", "", "", ""],
   ["", "L", "", "M", "", "", "", "", "", "", ""]]

/-- An empty country table (enough for rows with an empty country
column). -/
def emptyTbl : CountryTable := { exact := fun _ => none, shortLists := [], iso2c := [] }

/-- A small country table exercising both lookup stages. -/
def smallTbl : CountryTable :=
  { exact := fun n => if n = "Japan" then some "JP" else none,
    shortLists := [["U.S.", "America"], ["Nippon"]],
    iso2c := ["US", "JP"] }

/-- An 81-field data row that is empty except for the partitioned-CRL
column. -/
def row81 (v22 : String) : List String :=
  List.replicate 22 "" ++ [v22] ++ List.replicate 58 ""

/-- Output row of a successful pass-2 row run (fallback: empty). -/
def pass2RowOf (certs : CertMap) (tbl : CountryTable) (rowNo : Nat) (row : List String) :
    List Cell :=
  match pass2Row certs tbl rowNo row with
  | .ok o => o
  | .error _ => []

/-- A 9-field header for small pass-1 examples. -/
def c9header : List String :=
  ["h0", "HID", "h2", "HPARENT", "h4", "h5", "h6", "h7", "h8", "h9", "h10"]

def c9rows : List (List String) :=
  [c9header, ["", "X1", "", "HID", "", "", "", "", "", "", ""]]

/-- An 81-column header row. -/
def hdr81 : List String := List.replicate 81 "h"

/-! ### Association-list lemmas -/

theorem lookupCert_insert_self (m : CertMap) (k : String) (v : CACertificate) :
    lookupCert (insertCert m k v) k = some v := by
  induction m with
  | nil => simp [insertCert, lookupCert]
  | cons e rest ih =>
    obtain ⟨k', v'⟩ := e
    by_cases h : k' = k
    · simp [insertCert, lookupCert, h]
    · simp [insertCert, lookupCert, h, ih]

theorem lookupCert_insert_other (m : CertMap) (k k' : String) (v : CACertificate)
    (h : k' ≠ k) : lookupCert (insertCert m k v) k' = lookupCert m k' := by
  induction m with
  | nil => simp [insertCert, lookupCert, Ne.symm h]
  | cons e rest ih =>
    obtain ⟨k₀, v₀⟩ := e
    by_cases h₀ : k₀ = k
    · subst h₀
      simp [insertCert, lookupCert, Ne.symm h]
    · simp [insertCert, lookupCert, h₀, ih]

theorem lookupCert_modify_self (m : CertMap) (k : String) (f : CACertificate → CACertificate) :
    lookupCert (modifyCert m k f) k = (lookupCert m k).map f := by
  induction m with
  | nil => simp [modifyCert, lookupCert]
  | cons e rest ih =>
    obtain ⟨k₀, v₀⟩ := e
    by_cases h₀ : k₀ = k
    · simp [modifyCert, lookupCert, h₀]
    · simp [modifyCert, lookupCert, h₀, ih]

theorem lookupCert_modify_other (m : CertMap) (k k' : String)
    (f : CACertificate → CACertificate) (h : k' ≠ k) :
    lookupCert (modifyCert m k f) k' = lookupCert m k' := by
  induction m with
  | nil => simp [modifyCert, lookupCert]
  | cons e rest ih =>
    obtain ⟨k₀, v₀⟩ := e
    by_cases h₀ : k₀ = k
    · subst h₀
      simp [modifyCert, lookupCert, Ne.symm h]
    · simp [modifyCert, lookupCert, h₀, ih]

theorem lookupCert_mem {m : CertMap} {k : String} {c : CACertificate}
    (h : lookupCert m k = some c) : (k, c) ∈ m := by
  induction m with
  | nil => simp [lookupCert] at h
  | cons e rest ih =>
    obtain ⟨k₀, v₀⟩ := e
    by_cases h₀ : k₀ = k
    · subst h₀
      simp [lookupCert] at h
      simp [h]
    · simp [lookupCert, h₀] at h
      exact List.mem_cons_of_mem _ (ih h)

theorem mem_childrenOf_iff {m : CertMap} {p c : String} :
    c ∈ childrenOf m p ↔ ∃ cert, lookupCert m p = some cert ∧ c ∈ cert.children := by
  unfold childrenOf
  cases h : lookupCert m p with
  | none => simp
  | some cert => simp

/-! ### Pass-1 lemmas -/

theorem pass1Step_short {st : Pass1State} {row : List String} (h : row.length < 6) :
    pass1Step st row = .error indexErrMsg := by
  have h5 : row[5]? = none := List.getElem?_eq_none_iff.mpr (by omega)
  cases h1 : row[1]? with
  | none => simp [pass1Step, h1]
  | some sfid =>
    cases h3 : row[3]? with
    | none => simp [pass1Step, h1, h3]
    | some p => simp [pass1Step, h1, h3, h5]

theorem pass1Step_long {st : Pass1State} {row : List String} (h : 6 ≤ row.length) :
    ∃ sfid parent, row[1]? = some sfid ∧ row[3]? = some parent ∧
      pass1Step st row = .ok
        { cert_by_sfid :=
            insertCert st.cert_by_sfid sfid
              { is_root := decide (row.get ⟨5, by omega⟩ = "Root Certificate"),
                is_trusted :=
                  if decide (row.get ⟨5, by omega⟩ = "Root Certificate") then
                    some (isTrustedOfRow row)
                  else none,
                children := [] },
          cert_forest_edges := st.cert_forest_edges ++ [(parent, sfid)],
          num_records := st.num_records + 1 } := by
  have h1 : row[1]? = some (row.get ⟨1, by omega⟩) := List.getElem?_eq_getElem (by omega)
  have h3 : row[3]? = some (row.get ⟨3, by omega⟩) := List.getElem?_eq_getElem (by omega)
  have h5 : row[5]? = some (row.get ⟨5, by omega⟩) := List.getElem?_eq_getElem (by omega)
  exact ⟨_, _, h1, h3, by simp [pass1Step, h1, h3, h5]⟩

theorem pass1Step_ok_parts {st : Pass1State} {row : List String} {st' : Pass1State}
    (h : pass1Step st row = .ok st') :
    st'.num_records = st.num_records + 1 ∧
    ∃ sfid parent v, row[1]? = some sfid ∧ row[3]? = some parent ∧
      st'.cert_forest_edges = st.cert_forest_edges ++ [(parent, sfid)] ∧
      st'.cert_by_sfid = insertCert st.cert_by_sfid sfid v := by
  cases h1 : row[1]? with
  | none => simp [pass1Step, h1] at h
  | some sfid =>
  cases h3 : row[3]? with
  | none => simp [pass1Step, h1, h3] at h
  | some parent =>
  cases h5 : row[5]? with
  | none => simp [pass1Step, h1, h3, h5] at h
  | some ty =>
    simp only [pass1Step, h1, h3, h5] at h
    cases h
    exact ⟨rfl, sfid, parent, _, rfl, rfl, rfl, rfl⟩

/-- A successful pass-1 step keeps every already-known id in the map and
every already-recorded edge in the edge list. -/
theorem pass1Step_mono {st : Pass1State} {row : List String} {st' : Pass1State}
    (h : pass1Step st row = .ok st') :
    (∀ k, (lookupCert st.cert_by_sfid k).isSome = true →
      (lookupCert st'.cert_by_sfid k).isSome = true) ∧
    (∀ e, e ∈ st.cert_forest_edges → e ∈ st'.cert_forest_edges) := by
  obtain ⟨-, sfid, parent, v, -, -, hedges, hmap⟩ := pass1Step_ok_parts h
  refine ⟨fun k hk => ?_, fun e he => ?_⟩
  · rw [hmap]
    by_cases hks : k = sfid
    · subst hks
      rw [lookupCert_insert_self]
      rfl
    · rw [lookupCert_insert_other _ _ _ _ hks]
      exact hk
  · rw [hedges]
    exact List.mem_append_left _ he

theorem pass1_go_mono {rows : List (List String)} :
    ∀ {st₀ st : Pass1State}, rows.foldlM pass1Step st₀ = .ok st →
    st.num_records = st₀.num_records + rows.length ∧
    (∀ k, (lookupCert st₀.cert_by_sfid k).isSome = true →
      (lookupCert st.cert_by_sfid k).isSome = true) ∧
    (∀ e, e ∈ st₀.cert_forest_edges → e ∈ st.cert_forest_edges) := by
  induction rows with
  | nil =>
    intro st₀ st h
    simp only [List.foldlM_nil] at h
    cases h
    exact ⟨rfl, fun _ hk => hk, fun _ he => he⟩
  | cons row rows ih =>
    intro st₀ st h
    simp only [List.foldlM_cons] at h
    cases h1 : pass1Step st₀ row with
    | error e => rw [h1] at h; exact absurd h (by intro hh; cases hh)
    | ok st₁ =>
      rw [h1] at h
      rw [show ((Except.ok st₁ >>= fun s => rows.foldlM pass1Step s : Except String Pass1State)) = rows.foldlM pass1Step st₁ from rfl] at h
      obtain ⟨hnum, hmap, hedge⟩ := ih h
      obtain ⟨hnum₁, -⟩ := pass1Step_ok_parts h1
      obtain ⟨hmap₁, hedge₁⟩ := pass1Step_mono h1
      refine ⟨by rw [hnum, hnum₁]; simp only [List.length_cons]; omega,
        fun k hk => hmap k (hmap₁ k hk), fun e he => hedge e (hedge₁ e he)⟩

/-! ### Forest-building lemmas -/

theorem buildForestStep_lookup_isSome (fs : ForestState) (e : String × String) (k : String) :
    (lookupCert (buildForestStep fs e).cert_by_sfid k).isSome =
      (lookupCert fs.cert_by_sfid k).isSome := by
  unfold buildForestStep
  split
  · by_cases hk : k = e.1
    · subst hk
      rw [lookupCert_modify_self]
      cases lookupCert fs.cert_by_sfid e.1 <;> rfl
    · simp [lookupCert_modify_other _ _ _ _ hk]
  · rfl

theorem buildForestStep_roots_mono {fs : ForestState} {e : String × String} {k : String}
    (h : k ∈ fs.cert_forest_roots) : k ∈ (buildForestStep fs e).cert_forest_roots := by
  unfold buildForestStep
  split
  · exact h
  · split
    · exact h
    · exact List.mem_append_left _ h

theorem buildForest_go_roots {edges : List (String × String)} {parent sfid : String} :
    ∀ {fs : ForestState}, lookupCert fs.cert_by_sfid parent = none →
    ((parent, sfid) ∈ edges ∨ sfid ∈ fs.cert_forest_roots) →
    sfid ∈ (edges.foldl buildForestStep fs).cert_forest_roots := by
  induction edges with
  | nil =>
    intro fs _ h
    rcases h with h | h
    · simp at h
    · simpa using h
  | cons e edges ih =>
    intro fs hnone h
    have hnone' : lookupCert (buildForestStep fs e).cert_by_sfid parent = none := by
      have := buildForestStep_lookup_isSome fs e parent
      rw [hnone] at this
      cases hl : lookupCert (buildForestStep fs e).cert_by_sfid parent
      · rfl
      · rw [hl] at this; simp at this
    simp only [List.foldl_cons]
    rcases h with h | h
    · rcases List.mem_cons.mp h with h | h
      · refine ih hnone' (Or.inr ?_)
        rw [← h]
        unfold buildForestStep
        rw [show ((parent, sfid) : String × String).1 = parent from rfl] at *
        simp only [hnone, Option.isSome_none, Bool.false_eq_true, if_false]
        split
        · assumption
        · exact List.mem_append_right _ (by simp)
      · exact ih hnone' (Or.inl h)
    · exact ih hnone' (Or.inr (buildForestStep_roots_mono h))


/-! ### Generic `Except` helpers -/

theorem except_ok_bind {α β γ : Type} (x : β) (k : β → Except α γ) :
    (Except.ok x >>= k) = k x := rfl

theorem except_error_bind {α β γ : Type} (e : α) (k : β → Except α γ) :
    ((Except.error e : Except α β) >>= k) = .error e := rfl

/-! ### Claim C10 -/

/-- C10 counterexample: a six-field row — fewer than the 11 fields the
claim says pass 1 requires — is processed by the pass-1 loop body
without any error, because `row[7:11]` is a slice and never raises. -/
theorem pass1_six_field_row_ok :
    c10row.length < 11 ∧
    pass1Step { cert_by_sfid := [], cert_forest_edges := [], num_records := 0 } c10row =
      .ok { cert_by_sfid := [("id1", { is_root := false, is_trusted := none, children := [] })],
            cert_forest_edges := [("p1", "id1")],
            num_records := 1 } :=
  ⟨by decide, rfl⟩

/-- C10 (amended): pass 1 indexes only fields 1, 3 and 5 unguarded
(fields 7-10 are read through a slice, which cannot raise), so a row
with fewer than 6 fields aborts pass 1 with an unstructured IndexError,
while every row with at least 6 fields contributes its node and edge to
the hierarchy regardless of its actual width; the 81-field width check
is enforced only in the second pass. -/
theorem pass1_width_behavior :
    (∀ st row, row.length < 6 → pass1Step st row = .error indexErrMsg) ∧
    (∀ (st : Pass1State) (row : List String), 6 ≤ row.length → ∃ sfid parent st',
      row[1]? = some sfid ∧ row[3]? = some parent ∧ pass1Step st row = .ok st' ∧
      (lookupCert st'.cert_by_sfid sfid).isSome = true ∧
      st'.cert_forest_edges = st.cert_forest_edges ++ [(parent, sfid)]) ∧
    (∀ certs tbl rowNo row, row.length ≠ 81 →
      pass2Row certs tbl rowNo row = .error (widthErrMsg row.length rowNo)) := by
  refine ⟨fun st row h => pass1Step_short h, fun st row h => ?_, fun certs tbl rowNo row h => ?_⟩
  · obtain ⟨sfid, parent, h1, h3, hok⟩ := @pass1Step_long st row h
    exact ⟨sfid, parent, _, h1, h3, hok, by rw [lookupCert_insert_self]; rfl, rfl⟩
  · simp [pass2Row, h]
    rfl

/-- C10 witness: the three parts of `pass1_width_behavior` applied to a
three-field row, the six-field row `c10row`, and an 80-field row. -/
theorem pass1_width_behavior_witness :
    pass1Step { cert_by_sfid := [], cert_forest_edges := [], num_records := 0 }
      ["a", "b", "c"] = .error indexErrMsg ∧
    (∃ sfid parent st',
      c10row[1]? = some sfid ∧ c10row[3]? = some parent ∧
      pass1Step { cert_by_sfid := [], cert_forest_edges := [], num_records := 0 } c10row =
        .ok st' ∧
      (lookupCert st'.cert_by_sfid sfid).isSome = true ∧
      st'.cert_forest_edges = [] ++ [(parent, sfid)]) ∧
    pass2Row [] emptyTbl 2 (List.replicate 80 "") = .error (widthErrMsg 80 2) := by
  obtain ⟨p1, p2, p3⟩ := pass1_width_behavior
  refine ⟨p1 _ _ (by decide), ?_, ?_⟩
  · exact p2 { cert_by_sfid := [], cert_forest_edges := [], num_records := 0 } c10row (by decide)
  · have := p3 [] emptyTbl 2 (List.replicate 80 "") (by decide)
    rw [this]
    rw [show (List.replicate 80 "").length = 80 from by decide]

/-! ### Claim C9 -/

/-- C9: pass 1 consumes the CSV header row like any certificate record —
the record counter counts it, a node keyed by the header's id column is
created, the edge from the header's parent column to it is recorded, and
if that parent text matches no known id the header id becomes a forest
root; only pass 2 skips the header row (its first row is consumed as
the header and only the remaining rows are width-checked and
canonicalized). -/
theorem pass1_consumes_header :
    (∀ rows st, pass1 rows = .ok st → st.num_records = rows.length) ∧
    (∀ header rest st, pass1 (header :: rest) = .ok st →
      ∃ sfid parent, header[1]? = some sfid ∧ header[3]? = some parent ∧
        (lookupCert st.cert_by_sfid sfid).isSome = true ∧
        (parent, sfid) ∈ st.cert_forest_edges ∧
        (lookupCert st.cert_by_sfid parent = none →
          sfid ∈ (buildForest st.cert_by_sfid st.cert_forest_edges).cert_forest_roots)) ∧
    (∀ certs tbl header rest h', transformHeader header = .ok h' →
      pass2Full certs tbl (header :: rest) =
        match pass2Rows certs tbl 2 rest with
        | .error e => .error e
        | .ok out => .ok (h', out)) := by
  refine ⟨fun rows st h => ?_, fun header rest st h => ?_, fun certs tbl header rest h' hth => ?_⟩
  · obtain ⟨hnum, -, -⟩ := pass1_go_mono h
    simpa using hnum
  · simp only [pass1, List.foldlM_cons] at h
    cases h1 : pass1Step { cert_by_sfid := [], cert_forest_edges := [], num_records := 0 } header with
    | error e => rw [h1, except_error_bind] at h; cases h
    | ok st₁ =>
      rw [h1, except_ok_bind] at h
      obtain ⟨-, sfid, parent, v, hs, hp, hedges, hmap⟩ := pass1Step_ok_parts h1
      obtain ⟨-, hmono, hemono⟩ := pass1_go_mono h
      refine ⟨sfid, parent, hs, hp, ?_, ?_, fun hnone => ?_⟩
      · exact hmono sfid (by rw [hmap, lookupCert_insert_self]; rfl)
      · exact hemono _ (by rw [hedges]; simp)
      · exact buildForest_go_roots hnone
          (Or.inl (hemono _ (by rw [hedges]; simp)))
  · simp only [pass2Full, hth, except_ok_bind]
    cases h2 : pass2Rows certs tbl 2 rest with
    | error e => rfl
    | ok out => rfl

/-- C9 witness: `pass1_consumes_header` applied to a two-row input whose
header has id column "HID" and parent column "HPARENT", and to an
81-column header for the pass-2 part. -/
theorem pass1_consumes_header_witness :
    (pass1Of c9rows).num_records = 2 ∧
    (lookupCert (pass1Of c9rows).cert_by_sfid "HID").isSome = true ∧
    ("HPARENT", "HID") ∈ (pass1Of c9rows).cert_forest_edges ∧
    "HID" ∈ (buildForest (pass1Of c9rows).cert_by_sfid
      (pass1Of c9rows).cert_forest_edges).cert_forest_roots ∧
    pass2Full [] emptyTbl [hdr81] =
      .ok (match transformHeader hdr81 with | .ok h => h | .error _ => [], []) := by
  obtain ⟨p1, p2, p3⟩ := pass1_consumes_header
  have hok : pass1 c9rows = .ok (pass1Of c9rows) := rfl
  obtain ⟨sfid, parent, hs, hp, hsome, hedge, hroots⟩ :=
    p2 c9header [["", "X1", "", "HID", "", "", "", "", "", "", ""]] (pass1Of c9rows) hok
  have hsfid : sfid = "HID" := by
    rw [show c9header[1]? = some "HID" from rfl] at hs
    exact (Option.some_inj.mp hs).symm
  have hparent : parent = "HPARENT" := by
    rw [show c9header[3]? = some "HPARENT" from rfl] at hp
    exact (Option.some_inj.mp hp).symm
  subst hsfid hparent
  refine ⟨(p1 c9rows _ hok).trans (by decide), hsome, hedge, hroots (by decide), ?_⟩
  have h3 := p3 [] emptyTbl hdr81 []
    (match transformHeader hdr81 with | .ok h => h | .error _ => []) rfl
  rw [h3]
  rfl


/-! ### Claim C6 -/

/-- The pass-2 width check fires before any transformation of the row. -/
theorem pass2Row_width_error {certs : CertMap} {tbl : CountryTable} {rowNo : Nat}
    {row : List String} (h : row.length ≠ 81) :
    pass2Row certs tbl rowNo row = .error (widthErrMsg row.length rowNo) := by
  simp [pass2Row, h]
  rfl

theorem pass2Rows_width_error {certs : CertMap} {tbl : CountryTable} {bad : List String}
    (hbad : bad.length ≠ 81) :
    ∀ (pre : List (List String)) (rowNo : Nat) (out : List (List Cell))
      (rest : List (List String)),
      pass2Rows certs tbl rowNo pre = .ok out →
      pass2Rows certs tbl rowNo (pre ++ bad :: rest) =
        .error (widthErrMsg bad.length (rowNo + pre.length)) := by
  intro pre
  induction pre with
  | nil =>
    intro rowNo out rest _
    simp only [List.nil_append, List.length_nil, Nat.add_zero]
    show pass2Rows certs tbl rowNo (bad :: rest) = _
    simp only [pass2Rows, pass2Row_width_error hbad]
    rfl
  | cons p pre ih =>
    intro rowNo out rest hok
    simp only [pass2Rows] at hok
    cases hr : pass2Row certs tbl rowNo p with
    | error e => rw [hr, except_error_bind] at hok; cases hok
    | ok r =>
      rw [hr, except_ok_bind] at hok
      cases hrows : pass2Rows certs tbl (rowNo + 1) pre with
      | error e => rw [hrows, except_error_bind] at hok; cases hok
      | ok out' =>
        have heq : rowNo + (p :: pre).length = rowNo + 1 + pre.length := by
          simp only [List.length_cons]; omega
        rw [heq]
        show pass2Rows certs tbl rowNo ((p :: pre) ++ bad :: rest)
          = .error (widthErrMsg bad.length (rowNo + 1 + pre.length))
        rw [List.cons_append]
        simp only [pass2Rows]
        rw [hr, except_ok_bind, ih (rowNo + 1) out' rest hrows, except_error_bind]

/-- C6: in the second pass, any data row whose raw field count differs
from the expected 81 — e.g. one field short — makes the run abort with a
fatal width error naming exactly that record, before the row is
transformed in any way (the conclusion holds for an arbitrary offending
row and arbitrary following rows), so no output artifact is produced. -/
theorem pass2_width_fatal :
    ∀ (certs : CertMap) (tbl : CountryTable) (pre : List (List String))
      (out : List (List Cell)) (bad : List String) (rest : List (List String)),
      pass2Rows certs tbl 2 pre = .ok out → bad.length ≠ 81 →
      pass2Rows certs tbl 2 (pre ++ bad :: rest) =
        .error (widthErrMsg bad.length (2 + pre.length)) ∧
      ∀ (header : List String) (res : List String × List (List Cell)),
        pass2Full certs tbl (header :: (pre ++ bad :: rest)) ≠ .ok res := by
  intro certs tbl pre out bad rest hok hbad
  have herr := pass2Rows_width_error hbad pre 2 out rest hok
  refine ⟨herr, fun header res hfull => ?_⟩
  simp only [pass2Full] at hfull
  cases hth : transformHeader header with
  | error e => rw [hth, except_error_bind] at hfull; cases hfull
  | ok h =>
    rw [hth, except_ok_bind, herr, except_error_bind] at hfull
    cases hfull

/-- C6 witness: `pass2_width_fatal` applied with an empty prefix and an
80-field row. -/
theorem pass2_width_fatal_witness :
    pass2Rows [] emptyTbl 2 ([] ++ List.replicate 80 "" :: []) =
      .error (widthErrMsg (List.replicate 80 "").length (2 + ([] : List (List String)).length)) ∧
    ∀ (header : List String) (res : List String × List (List Cell)),
      pass2Full [] emptyTbl (header :: ([] ++ List.replicate 80 "" :: [])) ≠ .ok res := by
  exact pass2_width_fatal [] emptyTbl [] [] (List.replicate 80 "") [] rfl (by decide)

/-! ### Claim C8 -/

theorem scanShortList_ne_exn {iso2c : List String} {name : String} :
    ∀ (l : List String) (pos : Nat), pos + l.length ≤ iso2c.length →
      scanShortList iso2c name l pos ≠ .exn := by
  intro l
  induction l with
  | nil => intro pos _ h; simp [scanShortList] at h
  | cons c rest ih =>
    intro pos hlen
    simp only [scanShortList]
    split
    · have hpos : pos < iso2c.length := by
        simp only [List.length_cons] at hlen
        omega
      rw [List.getElem?_eq_getElem hpos]
      intro h
      cases h
    · exact ih (pos + 1) (by simp only [List.length_cons] at hlen; omega)

theorem scanShortList_notFound {iso2c : List String} {name : String} :
    ∀ (l : List String) (pos : Nat), (∀ c ∈ l, pyLower c ≠ pyLower name) →
      scanShortList iso2c name l pos = .notFound := by
  intro l
  induction l with
  | nil => intro pos _; rfl
  | cons c rest ih =>
    intro pos hne
    simp only [scanShortList]
    rw [if_neg (hne c (by simp))]
    exact ih (pos + 1) (fun c' hc' => hne c' (by simp [hc']))

theorem scanShortLists_ne_exn {iso2c : List String} {name : String}
    {ls : List (List String)} (h : ∀ l ∈ ls, l.length ≤ iso2c.length) :
    scanShortLists iso2c name ls ≠ .exn := by
  induction ls with
  | nil => intro hh; cases hh
  | cons l ls ih =>
    simp only [scanShortLists]
    cases hs : scanShortList iso2c name l 0 with
    | found code => intro hh; cases hh
    | exn => exact absurd hs (scanShortList_ne_exn l 0 (by simpa using h l (by simp)))
    | notFound => exact ih (fun l' hl' => h l' (by simp [hl']))

theorem scanShortLists_notFound {iso2c : List String} {name : String}
    {ls : List (List String)} (h : ∀ l ∈ ls, ∀ c ∈ l, pyLower c ≠ pyLower name) :
    scanShortLists iso2c name ls = .notFound := by
  induction ls with
  | nil => rfl
  | cons l ls ih =>
    simp only [scanShortLists]
    rw [scanShortList_notFound l 0 (h l (by simp))]
    exact ih (fun l' hl' => h l' (by simp [hl']))

/-- C8: the country resolver (1) returns any 2-character pure-ASCII
input unchanged; (2) never raises — it always returns a string —
whenever the static table's short-name variant lists are no longer than
its iso2c column (true of the bundled parallel-column table); (3)
otherwise returns a non-empty exact-name match when the lookup table has
one; and (4) returns the empty string when neither the exact lookup nor
the case-insensitive scan over every short-name variant list matches. -/
theorem get_country_code_contract :
    (∀ tbl name, name.length = 2 → isAsciiStr name = true →
      get_country_code tbl name = some name) ∧
    (∀ tbl name, (∀ l ∈ tbl.shortLists, l.length ≤ tbl.iso2c.length) →
      (get_country_code tbl name).isSome = true) ∧
    (∀ tbl name c, ¬(name.length = 2 ∧ isAsciiStr name = true) →
      tbl.exact name = some c → c ≠ "" → get_country_code tbl name = some c) ∧
    (∀ tbl name, ¬(name.length = 2 ∧ isAsciiStr name = true) →
      (tbl.exact name = none ∨ tbl.exact name = some "") →
      (∀ l ∈ tbl.shortLists, ∀ c ∈ l, pyLower c ≠ pyLower name) →
      get_country_code tbl name = some "") := by
  refine ⟨fun tbl name h1 h2 => ?_, fun tbl name hlen => ?_,
    fun tbl name c hno hex hne => ?_, fun tbl name hno hex hscan => ?_⟩
  · simp [get_country_code, h1, h2]
  · unfold get_country_code
    split
    · rfl
    · cases hex : tbl.exact name with
      | some c =>
        by_cases hc : c = ""
        · subst hc
          simp only [if_pos rfl]
          cases hscan : scanShortLists tbl.iso2c name tbl.shortLists with
          | found code => rfl
          | exn => exact absurd hscan (scanShortLists_ne_exn hlen)
          | notFound => rfl
        · simp only [if_neg hc]
          rfl
      | none =>
        cases hscan : scanShortLists tbl.iso2c name tbl.shortLists with
        | found code => rfl
        | exn => exact absurd hscan (scanShortLists_ne_exn hlen)
        | notFound => rfl
  · simp [get_country_code, hno, hex, hne]
  · unfold get_country_code
    rw [if_neg hno, scanShortLists_notFound hscan]
    rcases hex with hex | hex <;> rw [hex]
    simp

/-- C8 witness: `get_country_code_contract` applied to the concrete
table `smallTbl` on the inputs "JP", "Nippon", "Japan" and "Nowhere". -/
theorem get_country_code_contract_witness :
    get_country_code smallTbl "JP" = some "JP" ∧
    (get_country_code smallTbl "Nippon").isSome = true ∧
    get_country_code smallTbl "Japan" = some "JP" ∧
    get_country_code smallTbl "Nowhere" = some "" := by
  obtain ⟨p1, p2, p3, p4⟩ := get_country_code_contract
  refine ⟨p1 smallTbl "JP" (by decide) (by decide),
    p2 smallTbl "Nippon" (by decide), p3 smallTbl "Japan" "JP" (by decide) rfl (by decide),
    p4 smallTbl "Nowhere" (by decide) (Or.inl rfl) (by decide)⟩


/-! ### Claim C7: list-surgery lemmas -/

theorem except_map_ok {α β γ : Type} (f : β → γ) (x : β) :
    (f <$> (Except.ok x : Except α β)) = .ok (f x) := rfl

theorem except_map_error {α β γ : Type} (f : β → γ) (e : α) :
    (f <$> (Except.error e : Except α β)) = .error e := rfl

theorem pyInsert_length {α : Type} (l : List α) (i : Nat) (v : α) (h : i ≤ l.length) :
    (pyInsert l i v).length = l.length + 1 := by
  simp only [pyInsert, List.length_append, List.length_take, List.length_cons,
    List.length_drop]
  omega

theorem pyRemoveAt_length {α : Type} (l : List α) (i : Nat) (h : i < l.length) :
    (pyRemoveAt l i).length = l.length - 1 := by
  simp only [pyRemoveAt, List.length_append, List.length_take, List.length_drop]
  omega

theorem pyInsert_getElem?_lt {α : Type} {l : List α} {i j : Nat} {v : α}
    (hji : j < i) (hjl : j < l.length) : (pyInsert l i v)[j]? = l[j]? := by
  unfold pyInsert
  rw [List.getElem?_append_left (by simp only [List.length_take]; omega),
    List.getElem?_take_of_lt hji]

theorem pyInsert_getElem?_self {α : Type} {l : List α} {i : Nat} {v : α}
    (h : i ≤ l.length) : (pyInsert l i v)[i]? = some v := by
  unfold pyInsert
  rw [List.getElem?_append_right (by simp only [List.length_take]; omega)]
  have hlen : (List.take i l).length = i := by simp only [List.length_take]; omega
  rw [hlen, Nat.sub_self]
  simp

theorem pyInsert_getElem?_succ {α : Type} {l : List α} {i j : Nat} {v : α}
    (hij : i ≤ j) (hil : i ≤ l.length) : (pyInsert l i v)[j + 1]? = l[j]? := by
  unfold pyInsert
  rw [List.getElem?_append_right (by simp only [List.length_take]; omega)]
  have hlen : (List.take i l).length = i := by simp only [List.length_take]; omega
  rw [hlen]
  have hidx : j + 1 - i = (j - i) + 1 := by omega
  rw [hidx, List.getElem?_cons_succ, List.getElem?_drop]
  congr 1
  omega

theorem pyRemoveAt_getElem?_lt {α : Type} {l : List α} {i j : Nat}
    (hji : j < i) (hjl : j < l.length) : (pyRemoveAt l i)[j]? = l[j]? := by
  unfold pyRemoveAt
  rw [List.getElem?_append_left (by simp only [List.length_take]; omega),
    List.getElem?_take_of_lt hji]

theorem getStr_ok {r : List Cell} {i : Nat} {s : String} (h : getStr r i = .ok s) :
    r[i]? = some (Cell.str s) := by
  unfold getStr at h
  cases hr : r[i]? with
  | none => rw [hr] at h; cases h
  | some c =>
    rw [hr] at h
    cases c with
    | str s' => cases h; rfl
    | bool b => cases h
    | int n => cases h
    | null => cases h

theorem getCell_ok {r : List Cell} {i : Nat} {c : Cell} (h : getCell r i = .ok c) :
    r[i]? = some c := by
  unfold getCell at h
  cases hr : r[i]? with
  | none => rw [hr] at h; cases h
  | some c' => rw [hr] at h; cases h; rfl

theorem boolify_parts {r : List Cell} {i : Nat} {r' : List Cell}
    (h : boolify r i = .ok r') :
    r'.length = r.length ∧ ∀ j, j ≠ i → r'[j]? = r[j]? := by
  unfold boolify at h
  cases hg : getStr r i with
  | error e => rw [hg, except_error_bind] at h; cases h
  | ok s =>
    rw [hg, except_ok_bind] at h
    cases h
    exact ⟨List.length_set r _ _, fun j hj => List.getElem?_set_ne (Ne.symm hj)⟩

theorem dateify_parts {r : List Cell} {i : Nat} {r' : List Cell}
    (h : dateify r i = .ok r') :
    r'.length = r.length ∧ ∀ j, j ≠ i → r'[j]? = r[j]? := by
  unfold dateify at h
  cases hg : getStr r i with
  | error e => rw [hg, except_error_bind] at h; cases h
  | ok s =>
    rw [hg, except_ok_bind] at h
    cases h
    exact ⟨List.length_set r _ _, fun j hj => List.getElem?_set_ne (Ne.symm hj)⟩

theorem hexify_parts {r : List Cell} {i : Nat} {r' : List Cell}
    (h : hexify r i = .ok r') :
    r'.length = r.length ∧ ∀ j, j ≠ i → r'[j]? = r[j]? := by
  unfold hexify at h
  cases hg : getStr r i with
  | error e => rw [hg, except_error_bind] at h; cases h
  | ok s =>
    rw [hg, except_ok_bind] at h
    by_cases hs : s = ""
    · rw [if_pos hs] at h
      cases h
      exact ⟨rfl, fun _ _ => rfl⟩
    · rw [if_neg hs] at h
      cases hb : b64decode s with
      | error e => rw [hb, except_error_bind] at h; cases h
      | ok bytes =>
        rw [hb, except_ok_bind] at h
        cases h
        exact ⟨List.length_set r _ _, fun j hj => List.getElem?_set_ne (Ne.symm hj)⟩

theorem foldlM_idx_preserve {f : List Cell → Nat → Except String (List Cell)}
    (hf : ∀ r i r', f r i = .ok r' → r'.length = r.length ∧ ∀ j, j ≠ i → r'[j]? = r[j]?) :
    ∀ (idxs : List Nat) (r r' : List Cell), idxs.foldlM f r = .ok r' →
      r'.length = r.length ∧ ∀ j, j ∉ idxs → r'[j]? = r[j]? := by
  intro idxs
  induction idxs with
  | nil =>
    intro r r' h
    simp only [List.foldlM_nil] at h
    cases h
    exact ⟨rfl, fun _ _ => rfl⟩
  | cons i idxs ih =>
    intro r r' h
    simp only [List.foldlM_cons] at h
    cases hstep : f r i with
    | error e => rw [hstep, except_error_bind] at h; cases h
    | ok r₁ =>
      rw [hstep, except_ok_bind] at h
      obtain ⟨hlen₁, hget₁⟩ := hf r i r₁ hstep
      obtain ⟨hlen, hget⟩ := ih r₁ r' h
      refine ⟨hlen.trans hlen₁, fun j hj => ?_⟩
      rw [hget j (fun hh => hj (by simp [hh])), hget₁ j (fun hh => hj (by simp [hh]))]

/-- What `canonicalize` does to the partitioned-CRL column (index 22):
the empty string is left alone, anything else is parsed as a JSON array
of strings and joined with newlines; and the row's length is kept. -/
theorem canonicalize_parts {row : List String} {r : List Cell}
    (h : canonicalize row = .ok r) :
    r.length = row.length ∧
    ∀ s, row[22]? = some s →
      ((s = "" ∧ r[22]? = some (Cell.str "")) ∨
       (s ≠ "" ∧ ∃ items, parseJsonStringArray s = .ok items ∧
         r[22]? = some (Cell.str (String.intercalate "\n" items)))) := by
  unfold canonicalize at h
  cases h1 : boolIdxs.foldlM boolify (row.map Cell.str) with
  | error e => rw [h1, except_error_bind] at h; cases h
  | ok r₁ =>
  rw [h1, except_ok_bind] at h
  cases h2 : hexify r₁ 17 with
  | error e => rw [h2, except_error_bind] at h; cases h
  | ok r₂ =>
  rw [h2, except_ok_bind] at h
  cases h3 : hexify r₂ 18 with
  | error e => rw [h3, except_error_bind] at h; cases h
  | ok r₃ =>
  rw [h3, except_ok_bind] at h
  cases h4 : dateIdxs.foldlM dateify r₃ with
  | error e => rw [h4, except_error_bind] at h; cases h
  | ok r₄ =>
  rw [h4, except_ok_bind] at h
  cases h5 : getStr r₄ 22 with
  | error e => rw [h5, except_error_bind] at h; cases h
  | ok s22 =>
  rw [h5, except_ok_bind] at h
  obtain ⟨hlen₁, hget₁⟩ := foldlM_idx_preserve (fun r i r' => boolify_parts) boolIdxs _ _ h1
  obtain ⟨hlen₂, hget₂⟩ := hexify_parts h2
  obtain ⟨hlen₃, hget₃⟩ := hexify_parts h3
  obtain ⟨hlen₄, hget₄⟩ := foldlM_idx_preserve (fun r i r' => dateify_parts) dateIdxs _ _ h4
  have h22 : r₄[22]? = (row[22]?).map Cell.str := by
    rw [hget₄ 22 (by decide), hget₃ 22 (by decide), hget₂ 22 (by decide),
      hget₁ 22 (by decide), List.getElem?_map]
  have hlen₀ : r₄.length = row.length := by
    rw [hlen₄, hlen₃, hlen₂, hlen₁, List.length_map]
  by_cases hs : s22 = ""
  · rw [if_pos hs] at h
    cases h
    refine ⟨hlen₀, fun s hrow => ?_⟩
    have hs22 : r[22]? = some (Cell.str s) := by rw [h22, hrow]; rfl
    have := getStr_ok h5
    rw [hs22] at this
    have hss : s = s22 := by cases this; rfl
    exact Or.inl ⟨hss.trans hs, by rw [hs22, hss.trans hs]⟩
  · rw [if_neg hs] at h
    cases h6 : parseJsonStringArray s22 with
    | error e => rw [h6, except_error_bind] at h; cases h
    | ok items =>
      rw [h6, except_ok_bind] at h
      cases h
      refine ⟨by rw [List.length_set]; exact hlen₀, fun s hrow => ?_⟩
      have hs22 : r₄[22]? = some (Cell.str s) := by rw [h22, hrow]; rfl
      have := getStr_ok h5
      rw [hs22] at this
      have hss : s = s22 := by cases this; rfl
      have h22lt : 22 < r₄.length := by
        rw [hlen₀]
        by_contra hc
        rw [List.getElem?_eq_none_iff.mpr (by omega : row.length ≤ 22)] at hrow
        cases hrow
      refine Or.inr ⟨hss ▸ hs, items, hss ▸ h6, ?_⟩
      rw [List.getElem?_set_self' ]
      rw [hs22]
      rfl


theorem except_bind_ok_destruct {α β γ : Type} {x : Except α β} {k : β → Except α γ}
    {out : γ} (h : (x >>= k) = .ok out) : ∃ b, x = .ok b ∧ k b = .ok out := by
  cases x with
  | error e => cases h
  | ok b => exact ⟨b, rfl, h⟩

/-- Index bookkeeping for the tail of a pass-2 row: after the count
insert at 23 and the two inserts at 12, the joined text is at 24 and the
count cell at 25. -/
theorem out_idx_facts {r3 : List Cell} (h3 : r3.length = 83) (cnt x y : Cell) :
    (pyInsert (pyInsert (pyInsert r3 23 cnt) 12 x) 12 y)[24]? = r3[22]? ∧
    (pyInsert (pyInsert (pyInsert r3 23 cnt) 12 x) 12 y)[25]? = some cnt := by
  have h4 : (pyInsert r3 23 cnt).length = 84 := by
    rw [pyInsert_length _ _ _ (by omega)]; omega
  have h5 : (pyInsert (pyInsert r3 23 cnt) 12 x).length = 85 := by
    rw [pyInsert_length _ _ _ (by omega)]; omega
  have e1 : (pyInsert (pyInsert (pyInsert r3 23 cnt) 12 x) 12 y)[24]? =
      (pyInsert (pyInsert r3 23 cnt) 12 x)[23]? :=
    pyInsert_getElem?_succ (j := 23) (by omega) (by omega)
  have e2 : (pyInsert (pyInsert r3 23 cnt) 12 x)[23]? = (pyInsert r3 23 cnt)[22]? :=
    pyInsert_getElem?_succ (j := 22) (by omega) (by omega)
  have e3 : (pyInsert r3 23 cnt)[22]? = r3[22]? :=
    pyInsert_getElem?_lt (by omega) (by omega)
  have e4 : (pyInsert (pyInsert (pyInsert r3 23 cnt) 12 x) 12 y)[25]? =
      (pyInsert (pyInsert r3 23 cnt) 12 x)[24]? :=
    pyInsert_getElem?_succ (j := 24) (by omega) (by omega)
  have e5 : (pyInsert (pyInsert r3 23 cnt) 12 x)[24]? = (pyInsert r3 23 cnt)[23]? :=
    pyInsert_getElem?_succ (j := 23) (by omega) (by omega)
  have e6 : (pyInsert r3 23 cnt)[23]? = some cnt :=
    pyInsert_getElem?_self (by omega)
  exact ⟨e1.trans (e2.trans e3), e4.trans (e5.trans e6)⟩

/-- Where a successful pass-2 row leaves the joined partitioned-CRL text
and its derived count: after the three derived-column inserts the joined
text sits at index 24 and the count cell at index 25 of the output. -/
theorem pass2Row_out22 {certs : CertMap} {tbl : CountryTable} {rowNo : Nat}
    {row : List String} {out : List Cell} (h : pass2Row certs tbl rowNo row = .ok out) :
    row.length = 81 ∧ ∃ r, canonicalize row = .ok r ∧
      ∃ s, r[22]? = some (Cell.str s) ∧
        ((s ≠ "" ∧ out[24]? = some (Cell.str s) ∧
          out[25]? = some (Cell.int (countNewlines s + 1))) ∨
         (s = "" ∧ out[24]? = some (Cell.str "") ∧ out[25]? = some (Cell.str ""))) := by
  by_cases hw : row.length = 81
  case neg => rw [pass2Row_width_error hw] at h; cases h
  case pos =>
  refine ⟨hw, ?_⟩
  simp only [pass2Row] at h
  rw [if_neg (by simp [hw])] at h
  obtain ⟨-, -, h⟩ := except_bind_ok_destruct h
  obtain ⟨r, hc, h⟩ := except_bind_ok_destruct h
  refine ⟨r, hc, ?_⟩
  have hrlen : r.length = 81 := (canonicalize_parts hc).1.trans hw
  obtain ⟨moved, hm, h⟩ := except_bind_ok_destruct h
  obtain ⟨s80, h80, h⟩ := except_bind_ok_destruct h
  cases hcc : get_country_code tbl s80 with
  | none => rw [hcc] at h; cases h
  | some code =>
  rw [hcc] at h
  obtain ⟨y₀, hy₀, h⟩ := except_bind_ok_destruct h
  cases hy₀
  obtain ⟨s13, h13, h⟩ := except_bind_ok_destruct h
  obtain ⟨s22, h22, h⟩ := except_bind_ok_destruct h
  have hA : (pyRemoveAt r 78).length = 80 := by
    rw [pyRemoveAt_length r 78 (by omega)]; omega
  have hr1len : (pyRemoveAt r 78 ++ [moved]).length = 81 := by
    simp only [List.length_append, List.length_cons, List.length_nil]; omega
  have hr2len : (pyRemoveAt r 78 ++ [moved] ++ [Cell.str code]).length = 82 := by
    simp only [List.length_append, List.length_cons, List.length_nil]; omega
  have hr3len : (pyRemoveAt r 78 ++ [moved] ++ [Cell.str code] ++
      [Cell.str ("https://crt.sh/?sha256=" ++ s13)]).length = 83 := by
    simp only [List.length_append, List.length_cons, List.length_nil]; omega
  have hr3get : (pyRemoveAt r 78 ++ [moved] ++ [Cell.str code] ++
      [Cell.str ("https://crt.sh/?sha256=" ++ s13)])[22]? = some (Cell.str s22) :=
    getStr_ok h22
  have hr22 : r[22]? = some (Cell.str s22) := by
    have hs22get := hr3get
    rw [List.getElem?_append_left
        (by omega : (22 : Nat) < (pyRemoveAt r 78 ++ [moved] ++ [Cell.str code]).length),
      List.getElem?_append_left
        (by omega : (22 : Nat) < (pyRemoveAt r 78 ++ [moved]).length),
      List.getElem?_append_left
        (by omega : (22 : Nat) < (pyRemoveAt r 78).length),
      pyRemoveAt_getElem?_lt (by omega) (by omega)] at hs22get
    exact hs22get
  refine ⟨s22, hr22, ?_⟩
  by_cases hs : s22 = ""
  case pos =>
    simp only [if_neg (not_not_intro hs)] at h
    refine Or.inr ⟨hs, ?_⟩
    obtain ⟨s5, h5, h⟩ := except_bind_ok_destruct h
    have hcont : ∀ (x : Cell) (inc : Bool),
        out = pyInsert (pyInsert (pyInsert
          (pyRemoveAt r 78 ++ [moved] ++ [Cell.str code] ++
            [Cell.str ("https://crt.sh/?sha256=" ++ s13)]) 23 (Cell.str "")) 12 x)
          12 (Cell.bool inc) →
        out[24]? = some (Cell.str "") ∧ out[25]? = some (Cell.str "") := by
      intro x inc hout
      obtain ⟨hi24, hi25⟩ := out_idx_facts hr3len (Cell.str "") x (Cell.bool inc)
      rw [hout, hi24, hi25, hr3get, hs]
      exact ⟨rfl, rfl⟩
    by_cases h5i : s5 = "Intermediate Certificate"
    · rw [if_pos h5i] at h
      obtain ⟨s1, h1, h⟩ := except_bind_ok_destruct h
      cases hlook : lookupCert certs s1 with
      | none => rw [hlook] at h; cases h
      | some c =>
        rw [hlook] at h
        obtain ⟨y₁, hy₁, h⟩ := except_bind_ok_destruct h
        cases hy₁
        obtain ⟨s7, h7, h⟩ := except_bind_ok_destruct h
        obtain ⟨s8, h8, h⟩ := except_bind_ok_destruct h
        obtain ⟨s9, h9, h⟩ := except_bind_ok_destruct h
        obtain ⟨s10, h10, h⟩ := except_bind_ok_destruct h
        obtain ⟨inc, hinc, h⟩ := except_bind_ok_destruct h
        cases hinc
        cases h
        exact hcont _ _ rfl
    · rw [if_neg h5i] at h
      obtain ⟨y₁, hy₁, h⟩ := except_bind_ok_destruct h
      cases hy₁
      obtain ⟨s7, h7, h⟩ := except_bind_ok_destruct h
      obtain ⟨s8, h8, h⟩ := except_bind_ok_destruct h
      obtain ⟨s9, h9, h⟩ := except_bind_ok_destruct h
      obtain ⟨s10, h10, h⟩ := except_bind_ok_destruct h
      obtain ⟨inc, hinc, h⟩ := except_bind_ok_destruct h
      cases hinc
      cases h
      exact hcont _ _ rfl
  case neg =>
    simp only [if_pos hs] at h
    refine Or.inl ⟨hs, ?_⟩
    obtain ⟨s5, h5, h⟩ := except_bind_ok_destruct h
    have hcont : ∀ (x : Cell) (inc : Bool),
        out = pyInsert (pyInsert (pyInsert
          (pyRemoveAt r 78 ++ [moved] ++ [Cell.str code] ++
            [Cell.str ("https://crt.sh/?sha256=" ++ s13)]) 23
            (Cell.int (countNewlines s22 + 1))) 12 x)
          12 (Cell.bool inc) →
        out[24]? = some (Cell.str s22) ∧
          out[25]? = some (Cell.int (countNewlines s22 + 1)) := by
      intro x inc hout
      obtain ⟨hi24, hi25⟩ :=
        out_idx_facts hr3len (Cell.int (countNewlines s22 + 1)) x (Cell.bool inc)
      rw [hout, hi24, hi25, hr3get]
      exact ⟨rfl, rfl⟩
    by_cases h5i : s5 = "Intermediate Certificate"
    · rw [if_pos h5i] at h
      obtain ⟨s1, h1, h⟩ := except_bind_ok_destruct h
      cases hlook : lookupCert certs s1 with
      | none => rw [hlook] at h; cases h
      | some c =>
        rw [hlook] at h
        obtain ⟨y₁, hy₁, h⟩ := except_bind_ok_destruct h
        cases hy₁
        obtain ⟨s7, h7, h⟩ := except_bind_ok_destruct h
        obtain ⟨s8, h8, h⟩ := except_bind_ok_destruct h
        obtain ⟨s9, h9, h⟩ := except_bind_ok_destruct h
        obtain ⟨s10, h10, h⟩ := except_bind_ok_destruct h
        obtain ⟨inc, hinc, h⟩ := except_bind_ok_destruct h
        cases hinc
        cases h
        exact hcont _ _ rfl
    · rw [if_neg h5i] at h
      obtain ⟨y₁, hy₁, h⟩ := except_bind_ok_destruct h
      cases hy₁
      obtain ⟨s7, h7, h⟩ := except_bind_ok_destruct h
      obtain ⟨s8, h8, h⟩ := except_bind_ok_destruct h
      obtain ⟨s9, h9, h⟩ := except_bind_ok_destruct h
      obtain ⟨s10, h10, h⟩ := except_bind_ok_destruct h
      obtain ⟨inc, hinc, h⟩ := except_bind_ok_destruct h
      cases hinc
      cases h
      exact hcont _ _ rfl


/-- C7: for every row accepted by pass 2, the delimited-list column
behaves as specified: raw text `["a","b","c"]` comes out as the three
items joined with newlines, with derived count 3 (equal to 1 plus the
number of newline characters in the joined text), and an empty raw value
stays empty with an empty count cell. -/
theorem partitioned_crl_field :
    ∀ (certs : CertMap) (tbl : CountryTable) (rowNo : Nat) (row : List String)
      (out : List Cell), pass2Row certs tbl rowNo row = .ok out →
      (row[22]? = some "[\"a\",\"b\",\"c\"]" →
        out[24]? = some (Cell.str "a\nb\nc") ∧ out[25]? = some (Cell.int 3) ∧
        3 = 1 + countNewlines "a\nb\nc") ∧
      (row[22]? = some "" →
        out[24]? = some (Cell.str "") ∧ out[25]? = some (Cell.str "")) := by
  intro certs tbl rowNo row out h
  obtain ⟨hw, r, hc, s, hr22, hcase⟩ := pass2Row_out22 h
  have hcanon := (canonicalize_parts hc).2
  constructor
  · intro hjson
    rcases hcanon _ hjson with ⟨hempty, -⟩ | ⟨-, items, hparse, hget⟩
    · exact absurd hempty (by decide)
    · rw [show parseJsonStringArray "[\"a\",\"b\",\"c\"]" = .ok ["a", "b", "c"] from rfl]
        at hparse
      cases hparse
      rw [show String.intercalate "\n" ["a", "b", "c"] = "a\nb\nc" from rfl] at hget
      rw [hr22] at hget
      simp only [Option.some.injEq, Cell.str.injEq] at hget
      subst hget
      rcases hcase with ⟨-, h24, h25⟩ | ⟨hse, -, -⟩
      · refine ⟨h24, ?_, by decide⟩
        rw [h25]
        rw [show countNewlines "a\nb\nc" + 1 = 3 from by decide]
      · exact absurd hse (by decide)
  · intro hemp
    rcases hcanon _ hemp with ⟨-, hget⟩ | ⟨hne, -⟩
    · rw [hr22] at hget
      simp only [Option.some.injEq, Cell.str.injEq] at hget
      subst hget
      rcases hcase with ⟨hsne, -, -⟩ | ⟨-, h24, h25⟩
      · exact absurd rfl hsne
      · exact ⟨h24, h25⟩
    · exact absurd rfl hne

/-- C7 witness: `partitioned_crl_field` applied to two concrete 81-field
rows, one carrying `["a","b","c"]` and one carrying the empty string. -/
theorem partitioned_crl_field_witness :
    (pass2RowOf [] emptyTbl 2 (row81 "[\"a\",\"b\",\"c\"]"))[24]? =
      some (Cell.str "a\nb\nc") ∧
    (pass2RowOf [] emptyTbl 2 (row81 "[\"a\",\"b\",\"c\"]"))[25]? =
      some (Cell.int 3) ∧
    (pass2RowOf [] emptyTbl 2 (row81 ""))[24]? = some (Cell.str "") ∧
    (pass2RowOf [] emptyTbl 2 (row81 ""))[25]? = some (Cell.str "") := by
  obtain ⟨hA, -⟩ := partitioned_crl_field [] emptyTbl 2 (row81 "[\"a\",\"b\",\"c\"]")
    (pass2RowOf [] emptyTbl 2 (row81 "[\"a\",\"b\",\"c\"]")) rfl
  obtain ⟨-, hB⟩ := partitioned_crl_field [] emptyTbl 2 (row81 "")
    (pass2RowOf [] emptyTbl 2 (row81 "")) rfl
  obtain ⟨h24, h25, -⟩ := hA rfl
  obtain ⟨h24e, h25e⟩ := hB rfl
  exact ⟨h24, h25, h24e, h25e⟩


/-! ### Propagation: preservation lemmas -/

theorem assignChildren_parts :
    ∀ (cs : List String) (certs certs' : CertMap) (p : String),
      assignChildren certs p cs = .ok certs' →
      (∀ n, n ∉ cs → lookupCert certs' n = lookupCert certs n) ∧
      (∀ n c, lookupCert certs n = some c → c.is_root = true → lookupCert certs' n = some c) ∧
      (∀ n, (lookupCert certs' n).isSome = (lookupCert certs n).isSome) ∧
      (∀ n c', lookupCert certs' n = some c' → ∃ c, lookupCert certs n = some c ∧
        c'.is_root = c.is_root ∧ c'.children = c.children) := by
  intro cs
  induction cs with
  | nil =>
    intro certs certs' p h
    cases h
    exact ⟨fun _ _ => rfl, fun _ _ hc _ => hc, fun _ => rfl,
      fun n c' hc' => ⟨c', hc', rfl, rfl⟩⟩
  | cons c rest ih =>
    intro certs certs' p h
    simp only [assignChildren] at h
    cases hlc : lookupCert certs c with
    | none => simp only [hlc] at h; cases h
    | some ccert =>
      simp only [hlc] at h
      by_cases hroot : ccert.is_root
      · rw [if_pos hroot] at h
        obtain ⟨hi, hii, hiii, hiv⟩ := ih certs certs' p h
        exact ⟨fun n hn => hi n (fun hh => hn (by simp [hh])), hii, hiii, hiv⟩
      · rw [if_neg hroot] at h
        cases hlp : lookupCert certs p with
        | none => simp only [hlp] at h; cases h
        | some pcert =>
          simp only [hlp] at h
          obtain ⟨hi, hii, hiii, hiv⟩ := ih _ certs' p h
          refine ⟨fun n hn => ?_, fun n cn hcn hcnroot => ?_, fun n => ?_, fun n c' hc' => ?_⟩
          · have hnc : n ≠ c := fun hh => hn (by simp [hh])
            rw [hi n (fun hh => hn (by simp [hh])),
              lookupCert_modify_other _ _ _ _ hnc]
          · have hnc : n ≠ c := by
              intro hh
              subst hh
              rw [hlc] at hcn
              cases hcn
              exact hroot hcnroot
            exact hii n cn (by rw [lookupCert_modify_other _ _ _ _ hnc]; exact hcn) hcnroot
          · rw [hiii n]
            by_cases hnc : n = c
            · subst hnc
              rw [lookupCert_modify_self, hlc]
              rfl
            · rw [lookupCert_modify_other _ _ _ _ hnc]
          · obtain ⟨c₂, hc₂, hb, hch⟩ := hiv n c' hc'
            by_cases hnc : n = c
            · subst hnc
              rw [lookupCert_modify_self, hlc] at hc₂
              cases hc₂
              exact ⟨ccert, hlc, hb, hch⟩
            · rw [lookupCert_modify_other _ _ _ _ hnc] at hc₂
              exact ⟨c₂, hc₂, hb, hch⟩

theorem propagateAux_parts :
    ∀ (fuel : Nat) (certs : CertMap) (stack : List (List String)) (certs' : CertMap),
      propagateAux fuel certs stack = some (.ok certs') →
      (∀ n c, lookupCert certs n = some c → c.is_root = true → lookupCert certs' n = some c) ∧
      (∀ n, (lookupCert certs' n).isSome = (lookupCert certs n).isSome) ∧
      (∀ n c', lookupCert certs' n = some c' → ∃ c, lookupCert certs n = some c ∧
        c'.is_root = c.is_root ∧ c'.children = c.children) := by
  intro fuel
  induction fuel with
  | zero => intro certs stack certs' h; cases h
  | succ fuel ih =>
    intro certs stack certs' h
    cases stack with
    | nil =>
      simp only [propagateAux] at h
      cases h
      exact ⟨fun _ _ hc _ => hc, fun _ => rfl, fun n c' hc' => ⟨c', hc', rfl, rfl⟩⟩
    | cons frame rest =>
      simp only [propagateAux] at h
      by_cases hlen : (frame :: rest).length > 7
      · rw [if_pos hlen] at h; cases h
      · rw [if_neg hlen] at h
        cases hlast : frame.getLast? with
        | none => simp only [hlast] at h; exact ih certs rest certs' h
        | some sfid =>
          simp only [hlast] at h
          cases hlook : lookupCert certs sfid with
          | none => simp only [hlook] at h; cases h
          | some cert =>
            simp only [hlook] at h
            cases hassign : assignChildren certs sfid cert.children with
            | error e => simp only [hassign] at h; cases h
            | ok certs₂ =>
              simp only [hassign] at h
              obtain ⟨-, aii, aiii, aiv⟩ :=
                assignChildren_parts cert.children certs certs₂ sfid hassign
              have hnext : ∃ stack₂, propagateAux fuel certs₂ stack₂ = some (.ok certs') := by
                by_cases hemp : cert.children.isEmpty
                · rw [if_pos hemp] at h; exact ⟨_, h⟩
                · rw [if_neg hemp] at h; exact ⟨_, h⟩
              obtain ⟨stack₂, h₂⟩ := hnext
              obtain ⟨pii, piii, piv⟩ := ih certs₂ stack₂ certs' h₂
              refine ⟨fun n c hc hcroot => pii n c (aii n c hc hcroot) hcroot,
                fun n => (piii n).trans (aiii n), fun n c' hc' => ?_⟩
              obtain ⟨c₂, hc₂, hb₂, hch₂⟩ := piv n c' hc'
              obtain ⟨c₁, hc₁, hb₁, hch₁⟩ := aiv n c₂ hc₂
              exact ⟨c₁, hc₁, hb₂.trans hb₁, hch₂.trans hch₁⟩

theorem buildForestStep_trust (fs : ForestState) (e : String × String) (n : String)
    (c : CACertificate) (h : lookupCert (buildForestStep fs e).cert_by_sfid n = some c) :
    ∃ c₀, lookupCert fs.cert_by_sfid n = some c₀ ∧ c.is_root = c₀.is_root ∧
      c.is_trusted = c₀.is_trusted := by
  unfold buildForestStep at h
  split at h
  · by_cases hn : n = e.1
    · rw [hn] at h ⊢
      rw [lookupCert_modify_self] at h
      cases hl : lookupCert fs.cert_by_sfid e.1 with
      | none => rw [hl] at h; cases h
      | some c₀ =>
        rw [hl] at h
        cases h
        refine ⟨c₀, rfl, ?_, ?_⟩
        · simp only [addChild]
          split <;> rfl
        · simp only [addChild]
          split <;> rfl
    · rw [lookupCert_modify_other _ _ _ _ hn] at h
      exact ⟨c, h, rfl, rfl⟩
  · exact ⟨c, h, rfl, rfl⟩

theorem buildForest_go_trust :
    ∀ (edges : List (String × String)) (fs : ForestState) (n : String) (c : CACertificate),
      lookupCert (edges.foldl buildForestStep fs).cert_by_sfid n = some c →
      ∃ c₀, lookupCert fs.cert_by_sfid n = some c₀ ∧ c.is_root = c₀.is_root ∧
        c.is_trusted = c₀.is_trusted := by
  intro edges
  induction edges with
  | nil => intro fs n c h; exact ⟨c, h, rfl, rfl⟩
  | cons e edges ih =>
    intro fs n c h
    simp only [List.foldl_cons] at h
    obtain ⟨c₁, hc₁, hb₁, ht₁⟩ := ih (buildForestStep fs e) n c h
    obtain ⟨c₀, hc₀, hb₀, ht₀⟩ := buildForestStep_trust fs e n c₁ hc₁
    exact ⟨c₀, hc₀, hb₁.trans hb₀, ht₁.trans ht₀⟩


/-! ### Claim C4 -/

/-- Pass 1 gives a "Root Certificate" row a trust flag computed from its
own inclusion-status columns (row[7:11]). -/
theorem pass1Step_root_value {st : Pass1State} {row : List String} {st' : Pass1State}
    {sfid : String} (h : pass1Step st row = .ok st')
    (h5 : row[5]? = some "Root Certificate") (h1 : row[1]? = some sfid) :
    lookupCert st'.cert_by_sfid sfid =
      some { is_root := true, is_trusted := some (isTrustedOfRow row), children := [] } := by
  cases h3 : row[3]? with
  | none => simp [pass1Step, h1, h3] at h
  | some parent =>
    simp only [pass1Step, h1, h3, h5] at h
    cases h
    simp [lookupCert_insert_self]

/-- C4: propagation never assigns to a node whose `is_root` flag is set —
its entire entry survives the tree walk unchanged, even when it is
visited as the child of another node — so after the full pipeline its
transitive trust equals the `isDirectlyTrusted` value that pass 1
precomputed from its own inclusion-status columns (which the
forest-building pass also leaves untouched). -/
theorem root_trust_never_overwritten :
    (∀ (certs : CertMap) (roots : List String) (fuel : Nat) (certs' : CertMap),
      propagate certs roots fuel = some (.ok certs') →
      ∀ n c, lookupCert certs n = some c → c.is_root = true →
        lookupCert certs' n = some c) ∧
    (∀ (st : Pass1State) (row : List String) (st' : Pass1State) (sfid : String),
      pass1Step st row = .ok st' → row[5]? = some "Root Certificate" →
      row[1]? = some sfid → lookupCert st'.cert_by_sfid sfid =
        some { is_root := true, is_trusted := some (isTrustedOfRow row), children := [] }) ∧
    (∀ (certs : CertMap) (edges : List (String × String)) (n : String) (c : CACertificate),
      lookupCert (buildForest certs edges).cert_by_sfid n = some c →
      ∃ c₀, lookupCert certs n = some c₀ ∧ c.is_root = c₀.is_root ∧
        c.is_trusted = c₀.is_trusted) := by
  refine ⟨fun certs roots fuel certs' h n c hc hroot => ?_,
    fun st row st' sfid h h5 h1 => pass1Step_root_value h h5 h1,
    fun certs edges n c h => buildForest_go_trust edges _ n c h⟩
  exact (propagateAux_parts fuel certs [roots] certs' h).1 n c hc hroot

/-- C4 witness: in the chain R → M → L, the middle node M is typed
"Root Certificate" with `isDirectlyTrusted = false`; propagation visits
it as R's child yet leaves its entry — trust flag included — unchanged. -/
theorem root_trust_never_overwritten_witness :
    lookupCert (finalOf rootChildRows 100) "M" =
      some { is_root := true, is_trusted := some false, children := ["L"] } ∧
    lookupCert (forestOf rootChildRows).cert_by_sfid "M" =
      some { is_root := true, is_trusted := some false, children := ["L"] } ∧
    "M" ∈ childrenOf (forestOf rootChildRows).cert_by_sfid "R" := by
  obtain ⟨p1, -, -⟩ := root_trust_never_overwritten
  refine ⟨?_, rfl, by decide⟩
  exact p1 (forestOf rootChildRows).cert_by_sfid (forestOf rootChildRows).cert_forest_roots
    100 (finalOf rootChildRows 100) rfl "M"
    { is_root := true, is_trusted := some false, children := ["L"] } rfl rfl

/-! ### Claim C2 -/

theorem reach_no_roots {certs : CertMap} {roots : List String} (h : roots = []) :
    ∀ n, ¬ Reach certs roots n := by
  intro n hn
  induction hn with
  | root hr => rw [h] at hr; cases hr
  | child hp hc ih => exact ih

/-- Nodes outside the reachable set keep their entry untouched through
the whole walk. -/
theorem propagateAux_untouched (certs₀ : CertMap) (roots : List String) :
    ∀ (fuel : Nat) (certs : CertMap) (stack : List (List String)) (certs' : CertMap),
      (∀ n, childrenOf certs n = childrenOf certs₀ n) →
      (∀ id, id ∈ stack.flatten → Reach certs₀ roots id) →
      propagateAux fuel certs stack = some (.ok certs') →
      ∀ n, ¬ Reach certs₀ roots n → lookupCert certs' n = lookupCert certs n := by
  intro fuel
  induction fuel with
  | zero => intro certs stack certs' _ _ h; cases h
  | succ fuel ih =>
    intro certs stack certs' hch hstack h
    cases stack with
    | nil =>
      simp only [propagateAux] at h
      cases h
      exact fun n _ => rfl
    | cons frame rest =>
      simp only [propagateAux] at h
      by_cases hlen : (frame :: rest).length > 7
      · rw [if_pos hlen] at h; cases h
      · rw [if_neg hlen] at h
        cases hlast : frame.getLast? with
        | none =>
          simp only [hlast] at h
          exact ih certs rest certs' hch
            (fun id hid => hstack id (by simp only [List.flatten_cons] at *; exact List.mem_append_right _ hid)) h
        | some sfid =>
          simp only [hlast] at h
          cases hlook : lookupCert certs sfid with
          | none => simp only [hlook] at h; cases h
          | some cert =>
            simp only [hlook] at h
            cases hassign : assignChildren certs sfid cert.children with
            | error e => simp only [hassign] at h; cases h
            | ok certs₂ =>
              simp only [hassign] at h
              have hsfid : Reach certs₀ roots sfid :=
                hstack sfid (by
                  simp only [List.flatten_cons]
                  exact List.mem_append_left _ (List.mem_of_mem_getLast? hlast))
              have hcert_children : cert.children = childrenOf certs₀ sfid := by
                rw [← hch sfid]
                simp [childrenOf, hlook]
              obtain ⟨ai, aii, aiii, aiv⟩ :=
                assignChildren_parts cert.children certs certs₂ sfid hassign
              have hch₂ : ∀ n, childrenOf certs₂ n = childrenOf certs₀ n := by
                intro n
                rw [← hch n]
                unfold childrenOf
                cases hl₂ : lookupCert certs₂ n with
                | none =>
                  cases hl₁ : lookupCert certs n with
                  | none => rfl
                  | some c₁ =>
                    have := aiii n
                    rw [hl₂, hl₁] at this
                    cases this
                | some c₂ =>
                  obtain ⟨c₁, hc₁, -, hchn⟩ := aiv n c₂ hl₂
                  rw [hc₁]
                  exact hchn
              have hstack₂ : ∀ id, id ∈ (if cert.children.isEmpty = true then
                  (frame.dropLast :: rest) else (cert.children :: frame.dropLast :: rest)).flatten →
                  Reach certs₀ roots id := by
                intro id hid
                split at hid
                · simp only [List.flatten_cons] at hid
                  rcases List.mem_append.mp hid with hid | hid
                  · exact hstack id (by
                      simp only [List.flatten_cons]
                      exact List.mem_append_left _ (List.mem_of_mem_dropLast hid))
                  · exact hstack id (by
                      simp only [List.flatten_cons]
                      exact List.mem_append_right _ hid)
                · simp only [List.flatten_cons] at hid
                  rcases List.mem_append.mp hid with hid | hid
                  · exact Reach.child hsfid (hcert_children ▸ hid)
                  · rcases List.mem_append.mp hid with hid | hid
                    · exact hstack id (by
                        simp only [List.flatten_cons]
                        exact List.mem_append_left _ (List.mem_of_mem_dropLast hid))
                    · exact hstack id (by
                        simp only [List.flatten_cons]
                        exact List.mem_append_right _ hid)
              intro n hn
              have hnot_child : n ∉ cert.children := by
                intro hmem
                exact hn (Reach.child hsfid (hcert_children ▸ hmem))
              have huntouched : lookupCert certs₂ n = lookupCert certs n := ai n hnot_child
              by_cases hemp : cert.children.isEmpty
              · rw [if_pos hemp] at h
                rw [ih certs₂ _ certs' hch₂ (by
                    have := hstack₂
                    rw [if_pos hemp] at this
                    exact this) h n hn]
                exact huntouched
              · rw [if_neg hemp] at h
                rw [ih certs₂ _ certs' hch₂ (by
                    have := hstack₂
                    rw [if_neg hemp] at this
                    exact this) h n hn]
                exact huntouched


/-- A pass-1 step gives every node it creates with a non-root type a
`none` trust value, and leaves other entries alone. -/
theorem pass1Step_nonroot_none {st : Pass1State} {row : List String} {st' : Pass1State}
    (h : pass1Step st row = .ok st') :
    ∀ n c, lookupCert st'.cert_by_sfid n = some c → c.is_root = false →
      lookupCert st.cert_by_sfid n = some c ∨ c.is_trusted = none := by
  cases h1 : row[1]? with
  | none => simp [pass1Step, h1] at h
  | some sfid =>
  cases h3 : row[3]? with
  | none => simp [pass1Step, h1, h3] at h
  | some parent =>
  cases h5 : row[5]? with
  | none => simp [pass1Step, h1, h3, h5] at h
  | some ty =>
    simp only [pass1Step, h1, h3, h5] at h
    cases h
    intro n c hc hroot
    by_cases hn : n = sfid
    · subst hn
      rw [lookupCert_insert_self] at hc
      cases hc
      simp only at hroot
      right
      simp [hroot]
    · left
      rw [lookupCert_insert_other _ _ _ _ hn] at hc
      exact hc

theorem pass1_nonroot_none {rows : List (List String)} :
    ∀ {st₀ st : Pass1State}, rows.foldlM pass1Step st₀ = .ok st →
      (∀ n c, lookupCert st₀.cert_by_sfid n = some c → c.is_root = false →
        c.is_trusted = none) →
      ∀ n c, lookupCert st.cert_by_sfid n = some c → c.is_root = false →
        c.is_trusted = none := by
  induction rows with
  | nil =>
    intro st₀ st h h0
    simp only [List.foldlM_nil] at h
    cases h
    exact h0
  | cons row rows ih =>
    intro st₀ st h h0
    simp only [List.foldlM_cons] at h
    cases h1 : pass1Step st₀ row with
    | error e => rw [h1, except_error_bind] at h; cases h
    | ok st₁ =>
      rw [h1, except_ok_bind] at h
      refine ih h (fun n c hc hroot => ?_)
      rcases pass1Step_nonroot_none h1 n c hc hroot with hold | hnone
      · exact h0 n c hold hroot
      · exact hnone

/-- C2 (amended): every node unreachable from the forest roots keeps its
pass-1 entry verbatim through propagation; in particular a node whose
type is not "Root Certificate" keeps the unknown trust value `none`. (A
root-typed unreachable node instead keeps its precomputed boolean — see
the counterexample.) -/
theorem unreachable_nodes_keep_initial :
    ∀ (rows : List (List String)) (st : Pass1State) (fuel : Nat) (certs' : CertMap),
      pass1 rows = .ok st →
      propagate (buildForest st.cert_by_sfid st.cert_forest_edges).cert_by_sfid
        (buildForest st.cert_by_sfid st.cert_forest_edges).cert_forest_roots fuel
        = some (.ok certs') →
      ∀ n, ¬ Reach (buildForest st.cert_by_sfid st.cert_forest_edges).cert_by_sfid
            (buildForest st.cert_by_sfid st.cert_forest_edges).cert_forest_roots n →
        lookupCert certs' n =
          lookupCert (buildForest st.cert_by_sfid st.cert_forest_edges).cert_by_sfid n ∧
        ∀ c, lookupCert certs' n = some c → c.is_root = false → c.is_trusted = none := by
  intro rows st fuel certs' hp1 hprop n hn
  have huntouched := propagateAux_untouched
    (buildForest st.cert_by_sfid st.cert_forest_edges).cert_by_sfid
    (buildForest st.cert_by_sfid st.cert_forest_edges).cert_forest_roots
    fuel _ _ certs' (fun _ => rfl)
    (fun id hid => Reach.root (by
      simp only [List.flatten, List.append_nil] at hid
      exact hid))
    hprop n hn
  refine ⟨huntouched, fun c hc hroot => ?_⟩
  rw [huntouched] at hc
  obtain ⟨c₀, hc₀, hb₀, ht₀⟩ := buildForest_go_trust st.cert_forest_edges _ n c hc
  rw [ht₀]
  exact pass1_nonroot_none hp1 (fun n c hc _ => by cases hc) n c₀ hc₀ (hb₀ ▸ hroot)

/-- C2 counterexample: in the two-node cycle A ↔ B, node A is typed
"Root Certificate" with an "Included" status; there are no forest roots,
so A is unreachable, yet after propagation its trust value is the
boolean `some true`, not the unknown value `none`. -/
theorem unreachable_root_keeps_bool :
    (forestOf rootCycRows).cert_forest_roots = [] ∧
    propagate (forestOf rootCycRows).cert_by_sfid
      (forestOf rootCycRows).cert_forest_roots 100 =
      some (.ok (finalOf rootCycRows 100)) ∧
    (¬ Reach (forestOf rootCycRows).cert_by_sfid
      (forestOf rootCycRows).cert_forest_roots "A") ∧
    lookupCert (finalOf rootCycRows 100) "A" =
      some { is_root := true, is_trusted := some true, children := ["B"] } :=
  ⟨rfl, rfl, reach_no_roots rfl "A", rfl⟩

/-- C2 witness: `unreachable_nodes_keep_initial` applied to the pure
three-node cycle, where no node is reachable (there are no forest
roots): node A keeps its entry, with trust `none`. -/
theorem unreachable_nodes_keep_initial_witness :
    lookupCert (finalOf cycRows 100) "A" =
      lookupCert (forestOf cycRows).cert_by_sfid "A" ∧
    ∀ c, lookupCert (finalOf cycRows 100) "A" = some c → c.is_root = false →
      c.is_trusted = none := by
  have h := unreachable_nodes_keep_initial cycRows (pass1Of cycRows) 100
    (finalOf cycRows 100) rfl rfl "A" (reach_no_roots rfl "A")
  exact h


/-! ### Paths and the depth guard (claims C5 and C1) -/

theorem pathFrom_length_pos {certs : CertMap} {a : String} {l : List String} {n : String}
    (h : PathFrom certs a l n) : 1 ≤ l.length := by
  induction h with
  | refl => simp
  | step hp hc ih => simp

theorem pathFrom_front {certs : CertMap} {a : String} {l : List String} {n : String}
    (h : PathFrom certs a l n) :
    (l = [a] ∧ n = a) ∨
    ∃ c t, l = a :: t ∧ c ∈ childrenOf certs a ∧ PathFrom certs c t n := by
  induction h with
  | refl => exact Or.inl ⟨rfl, rfl⟩
  | step hp hc ih =>
    rename_i l' b' c'
    rcases ih with ⟨hl, hn⟩ | ⟨c₀, t, hl, hc₀, hp'⟩
    · subst hl
      subst hn
      exact Or.inr ⟨c', [c'], rfl, hc, PathFrom.refl c'⟩
    · subst hl
      exact Or.inr ⟨c₀, t ++ [c'], rfl, hc₀, PathFrom.step hp' hc⟩

theorem pathFrom_trans {certs : CertMap} {a : String} {l : List String} {b : String}
    (hab : PathFrom certs a l b) :
    ∀ {l' : List String} {c : String}, PathFrom certs b l' c →
      PathFrom certs a (l ++ l'.tail) c := by
  intro l' c hbc
  induction hbc with
  | refl => simpa using hab
  | step hp hc ih =>
    rename_i l₂ b₂ c₂
    have h₂ := PathFrom.step ih hc
    have hne : l₂ ≠ [] := by
      intro hnil
      have := pathFrom_length_pos hp
      rw [hnil] at this
      simp at this
    have htl : l ++ l₂.tail ++ [c₂] = l ++ (l₂ ++ [c₂]).tail := by
      rw [List.tail_append_of_ne_nil hne, List.append_assoc]
    rwa [htl] at h₂

theorem mem_dropLast_of_ne_last {l : List String} {a b : String}
    (ha : a ∈ l) (hb : l.getLast? = some b) (hab : a ≠ b) : a ∈ l.dropLast := by
  have hne : l ≠ [] := by
    intro hnil
    rw [hnil] at hb
    cases hb
  have hlast : l.getLast hne = b := by
    rw [List.getLast?_eq_getLast l hne] at hb
    exact Option.some_inj.mp hb
  have hdec := List.dropLast_concat_getLast hne
  rw [← hdec] at ha
  rcases List.mem_append.mp ha with h | h
  · exact h
  · rw [hlast] at h
    simp at h
    exact absurd h hab

/-- `assignChildren` never changes any node's children. -/
theorem assignChildren_children_eq {certs₀ certs certs₂ : CertMap} {p : String}
    {cs : List String} (hch : ∀ n, childrenOf certs n = childrenOf certs₀ n)
    (hassign : assignChildren certs p cs = .ok certs₂) :
    ∀ n, childrenOf certs₂ n = childrenOf certs₀ n := by
  obtain ⟨-, -, aiii, aiv⟩ := assignChildren_parts cs certs certs₂ p hassign
  intro n
  rw [← hch n]
  unfold childrenOf
  cases hl₂ : lookupCert certs₂ n with
  | none =>
    cases hl₁ : lookupCert certs n with
    | none => rfl
    | some c₁ =>
      have := aiii n
      rw [hl₂, hl₁] at this
      cases this
  | some c₂ =>
    obtain ⟨c₁, hc₁, -, hchn⟩ := aiv n c₂ hl₂
    rw [hc₁]
    exact hchn

/-- If the walk completes, every path out of any id on the stack fits in
the 7-frame budget (counting the frames below the id's frame). -/
theorem propagateAux_path_bound (certs₀ : CertMap) :
    ∀ (fuel : Nat) (certs : CertMap) (stack : List (List String)) (certs' : CertMap),
      (∀ n, childrenOf certs n = childrenOf certs₀ n) →
      propagateAux fuel certs stack = some (.ok certs') →
      ∀ (f : List String) (rest : List (List String)), (f :: rest) <:+ stack →
      ∀ id ∈ f, ∀ (l : List String) (n : String), PathFrom certs₀ id l n →
        rest.length + l.length ≤ 7 := by
  intro fuel
  induction fuel with
  | zero => intro certs stack certs' _ h; cases h
  | succ fuel ih =>
    intro certs stack certs' hch h f rest hsuf id hid l n hpath
    cases stack with
    | nil =>
      have := List.suffix_nil.mp hsuf
      cases this
    | cons frame rest' =>
      simp only [propagateAux] at h
      by_cases hlen : (frame :: rest').length > 7
      · rw [if_pos hlen] at h; cases h
      · rw [if_neg hlen] at h
        have hlen' : rest'.length + 1 ≤ 7 := by
          simp only [List.length_cons, gt_iff_lt, not_lt] at hlen
          omega
        cases hlast : frame.getLast? with
        | none =>
          simp only [hlast] at h
          rcases List.suffix_cons_iff.mp hsuf with heq | hsuf'
          · cases heq
            rw [List.getLast?_eq_none_iff.mp hlast] at hid
            cases hid
          · exact ih certs rest' certs' hch h f rest hsuf' id hid l n hpath
        | some sfid =>
          simp only [hlast] at h
          cases hlook : lookupCert certs sfid with
          | none => simp only [hlook] at h; cases h
          | some cert =>
            simp only [hlook] at h
            cases hassign : assignChildren certs sfid cert.children with
            | error e => simp only [hassign] at h; cases h
            | ok certs₂ =>
              simp only [hassign] at h
              have hch₂ : ∀ m, childrenOf certs₂ m = childrenOf certs₀ m :=
                assignChildren_children_eq hch hassign
              have hcert_children : cert.children = childrenOf certs₀ sfid := by
                rw [← hch sfid]
                simp [childrenOf, hlook]
              rcases List.suffix_cons_iff.mp hsuf with heq | hsuf'
              · cases heq
                by_cases hid_sfid : id = sfid
                · subst hid_sfid
                  rcases pathFrom_front hpath with ⟨hl, -⟩ | ⟨c, t, hl, hc, hp'⟩
                  · subst hl
                    simpa using hlen'
                  · subst hl
                    rw [← hcert_children] at hc
                    have hne : ¬ cert.children.isEmpty = true := by
                      cases hcc : cert.children with
                      | nil => rw [hcc] at hc; cases hc
                      | cons a t' => simp [hcc]
                    rw [if_neg hne] at h
                    have hbound := ih certs₂ _ certs' hch₂ h cert.children
                      (f.dropLast :: rest) (List.suffix_refl _) c hc t n hp'
                    simp only [List.length_cons] at hbound ⊢
                    omega
                · have hid' : id ∈ f.dropLast := mem_dropLast_of_ne_last hid hlast hid_sfid
                  by_cases hemp : cert.children.isEmpty
                  · rw [if_pos hemp] at h
                    exact ih certs₂ _ certs' hch₂ h f.dropLast rest
                      (List.suffix_refl _) id hid' l n hpath
                  · rw [if_neg hemp] at h
                    exact ih certs₂ _ certs' hch₂ h f.dropLast rest
                      (List.suffix_cons _ _) id hid' l n hpath
              · by_cases hemp : cert.children.isEmpty
                · rw [if_pos hemp] at h
                  exact ih certs₂ _ certs' hch₂ h f rest
                    (hsuf'.trans (List.suffix_cons _ _)) id hid l n hpath
                · rw [if_neg hemp] at h
                  exact ih certs₂ _ certs' hch₂ h f rest
                    ((hsuf'.trans (List.suffix_cons _ _)).trans (List.suffix_cons _ _))
                    id hid l n hpath


theorem assignChildren_ok_of_present :
    ∀ (cs : List String) (certs : CertMap) (p : String),
      (∀ c ∈ cs, (lookupCert certs c).isSome = true) →
      (lookupCert certs p).isSome = true →
      ∃ certs', assignChildren certs p cs = .ok certs' := by
  intro cs
  induction cs with
  | nil => intro certs p _ _; exact ⟨certs, rfl⟩
  | cons c rest ih =>
    intro certs p hcs hp
    have hc := hcs c (by simp)
    cases hlc : lookupCert certs c with
    | none => rw [hlc] at hc; cases hc
    | some ccert =>
      by_cases hroot : ccert.is_root
      · obtain ⟨certs', h⟩ := ih certs p (fun c' hc' => hcs c' (by simp [hc'])) hp
        exact ⟨certs', by simp only [assignChildren, hlc]; rw [if_pos hroot]; exact h⟩
      · cases hlp : lookupCert certs p with
        | none => rw [hlp] at hp; cases hp
        | some pcert =>
          have hmod : ∀ c', (lookupCert certs c').isSome = true →
              (lookupCert (modifyCert certs c
                (fun cc => { cc with is_trusted := pcert.is_trusted })) c').isSome = true := by
            intro c' hc'
            by_cases hcc : c' = c
            · subst hcc
              rw [lookupCert_modify_self]
              cases hl : lookupCert certs c'
              · rw [hl] at hc'; cases hc'
              · rfl
            · rw [lookupCert_modify_other _ _ _ _ hcc]
              exact hc'
          obtain ⟨certs', h⟩ := ih _ p
            (fun c' hc' => hmod c' (hcs c' (by simp [hc']))) (hmod p hp)
          refine ⟨certs', ?_⟩
          simp only [assignChildren, hlc]
          rw [if_neg hroot, hlp]
          exact h

/-- On a map whose children ids all have entries, the only error the
walk can raise is the loop error. -/
theorem propagateAux_err_msg (certs₀ : CertMap) (hclosed : childClosed certs₀) :
    ∀ (fuel : Nat) (certs : CertMap) (stack : List (List String)) (e : String),
      (∀ n, (lookupCert certs n).isSome = (lookupCert certs₀ n).isSome) →
      (∀ n, childrenOf certs n = childrenOf certs₀ n) →
      (∀ id ∈ stack.flatten, (lookupCert certs id).isSome = true) →
      propagateAux fuel certs stack = some (.error e) → e = loopErrMsg := by
  intro fuel
  induction fuel with
  | zero => intro certs stack e _ _ _ h; cases h
  | succ fuel ih =>
    intro certs stack e hdom hch hstack h
    cases stack with
    | nil => simp only [propagateAux] at h; cases h
    | cons frame rest =>
      simp only [propagateAux] at h
      by_cases hlen : (frame :: rest).length > 7
      · rw [if_pos hlen] at h
        cases h
        rfl
      · rw [if_neg hlen] at h
        cases hlast : frame.getLast? with
        | none =>
          simp only [hlast] at h
          exact ih certs rest e hdom hch
            (fun id hid => hstack id (by
              simp only [List.flatten_cons]
              exact List.mem_append_right _ hid)) h
        | some sfid =>
          simp only [hlast] at h
          have hsfid_mem : sfid ∈ (frame :: rest).flatten := by
            simp only [List.flatten_cons]
            exact List.mem_append_left _ (List.mem_of_mem_getLast? hlast)
          have hsfid := hstack sfid hsfid_mem
          cases hlook : lookupCert certs sfid with
          | none => rw [hlook] at hsfid; cases hsfid
          | some cert =>
            simp only [hlook] at h
            have hcert_children : cert.children = childrenOf certs₀ sfid := by
              rw [← hch sfid]
              simp [childrenOf, hlook]
            have hkids : ∀ c ∈ cert.children, (lookupCert certs c).isSome = true := by
              intro c hc
              rw [hcert_children] at hc
              obtain ⟨cert₀, hl₀, hc₀⟩ := mem_childrenOf_iff.mp hc
              have := hclosed (sfid, cert₀) (lookupCert_mem hl₀) c hc₀
              rw [hdom c]
              exact this
            obtain ⟨certs₂, hassign⟩ :=
              assignChildren_ok_of_present cert.children certs sfid hkids hsfid
            simp only [hassign] at h
            obtain ⟨-, -, aiii, -⟩ :=
              assignChildren_parts cert.children certs certs₂ sfid hassign
            have hdom₂ : ∀ n, (lookupCert certs₂ n).isSome = (lookupCert certs₀ n).isSome :=
              fun n => (aiii n).trans (hdom n)
            have hch₂ : ∀ m, childrenOf certs₂ m = childrenOf certs₀ m :=
              assignChildren_children_eq hch hassign
            have hkeep : ∀ id, (lookupCert certs id).isSome = true →
                (lookupCert certs₂ id).isSome = true := by
              intro id hh
              rw [aiii id]
              exact hh
            by_cases hemp : cert.children.isEmpty
            · rw [if_pos hemp] at h
              refine ih certs₂ _ e hdom₂ hch₂ (fun id hid => ?_) h
              simp only [List.flatten_cons] at hid
              rcases List.mem_append.mp hid with hid | hid
              · exact hkeep id (hstack id (by
                  simp only [List.flatten_cons]
                  exact List.mem_append_left _ (List.mem_of_mem_dropLast hid)))
              · exact hkeep id (hstack id (by
                  simp only [List.flatten_cons]
                  exact List.mem_append_right _ hid))
            · rw [if_neg hemp] at h
              refine ih certs₂ _ e hdom₂ hch₂ (fun id hid => ?_) h
              simp only [List.flatten_cons] at hid
              rcases List.mem_append.mp hid with hid | hid
              · exact hkeep id (hkids id hid)
              · rcases List.mem_append.mp hid with hid | hid
                · exact hkeep id (hstack id (by
                    simp only [List.flatten_cons]
                    exact List.mem_append_left _ (List.mem_of_mem_dropLast hid)))
                · exact hkeep id (hstack id (by
                    simp only [List.flatten_cons]
                    exact List.mem_append_right _ hid))


theorem assignChildren_err :
    ∀ (cs : List String) (certs : CertMap) (p : String) (e : String),
      assignChildren certs p cs = .error e → e = keyErrMsg := by
  intro cs
  induction cs with
  | nil => intro certs p e h; cases h
  | cons c rest ih =>
    intro certs p e h
    simp only [assignChildren] at h
    cases hlc : lookupCert certs c with
    | none => simp only [hlc] at h; cases h; rfl
    | some ccert =>
      simp only [hlc] at h
      by_cases hroot : ccert.is_root
      · rw [if_pos hroot] at h
        exact ih certs p e h
      · rw [if_neg hroot] at h
        cases hlp : lookupCert certs p with
        | none => simp only [hlp] at h; cases h; rfl
        | some pcert =>
          simp only [hlp] at h
          exact ih _ p e h

/-- If every path out of a forest root fits in 7 nodes, the walk never
raises the loop error. -/
theorem propagateAux_no_loop (certs₀ : CertMap) (roots : List String)
    (hbound : ∀ r ∈ roots, ∀ (l : List String) (n : String),
      PathFrom certs₀ r l n → l.length ≤ 7) :
    ∀ (fuel : Nat) (certs : CertMap) (stack : List (List String)),
      (∀ n, childrenOf certs n = childrenOf certs₀ n) →
      (∀ (f : List String) (rest : List (List String)), (f :: rest) <:+ stack →
        ∀ id ∈ f, ∃ r ∈ roots, ∃ l, PathFrom certs₀ r l id ∧ l.length = rest.length + 1) →
      (stack.length > 7 → ∃ f rest, stack = f :: rest ∧ f ≠ []) →
      propagateAux fuel certs stack ≠ some (.error loopErrMsg) := by
  intro fuel
  induction fuel with
  | zero => intro certs stack _ _ _ h; cases h
  | succ fuel ih =>
    intro certs stack hch hstack htop h
    cases stack with
    | nil => simp only [propagateAux] at h; cases h
    | cons frame rest =>
      simp only [propagateAux] at h
      by_cases hlen : (frame :: rest).length > 7
      · obtain ⟨f, rest', heq, hne⟩ := htop hlen
        cases heq
        obtain ⟨id, hid⟩ := List.exists_mem_of_ne_nil frame hne
        obtain ⟨r, hr, l, hpath, hlenl⟩ := hstack frame rest (List.suffix_refl _) id hid
        have := hbound r hr l id hpath
        simp only [List.length_cons] at hlen
        omega
      · rw [if_neg hlen] at h
        have hlen7 : rest.length + 1 ≤ 7 := by
          simp only [List.length_cons, gt_iff_lt, not_lt] at hlen
          omega
        cases hlast : frame.getLast? with
        | none =>
          simp only [hlast] at h
          refine ih certs rest hch (fun f rest' hsuf id hid => ?_) (fun hl => ?_) h
          · exact hstack f rest' (hsuf.trans (List.suffix_cons _ _)) id hid
          · exact absurd hl (by omega)
        | some sfid =>
          simp only [hlast] at h
          cases hlook : lookupCert certs sfid with
          | none =>
            simp only [hlook, Option.some.injEq, Except.error.injEq,
              keyErrMsg, loopErrMsg] at h
            exact absurd h (by decide)
          | some cert =>
            simp only [hlook] at h
            cases hassign : assignChildren certs sfid cert.children with
            | error e =>
              simp only [hassign, Option.some.injEq, Except.error.injEq] at h
              have := assignChildren_err cert.children certs sfid e hassign
              rw [this] at h
              simp only [keyErrMsg, loopErrMsg] at h
              exact absurd h (by decide)
            | ok certs₂ =>
              simp only [hassign] at h
              have hch₂ : ∀ m, childrenOf certs₂ m = childrenOf certs₀ m :=
                assignChildren_children_eq hch hassign
              have hcert_children : cert.children = childrenOf certs₀ sfid := by
                rw [← hch sfid]
                simp [childrenOf, hlook]
              obtain ⟨rs, hrs, ls, hpaths, hlens⟩ := hstack frame rest (List.suffix_refl _)
                sfid (List.mem_of_mem_getLast? hlast)
              by_cases hemp : cert.children.isEmpty
              · rw [if_pos hemp] at h
                refine ih certs₂ _ hch₂ (fun f rest' hsuf id hid => ?_) (fun hl => ?_) h
                · rcases List.suffix_cons_iff.mp hsuf with heq | hsuf'
                  · cases heq
                    exact hstack frame rest (List.suffix_refl _) id
                      (List.mem_of_mem_dropLast hid)
                  · exact hstack f rest' (hsuf'.trans (List.suffix_cons _ _)) id hid
                · exact absurd hl (by simp only [List.length_cons] at hl; omega)
              · rw [if_neg hemp] at h
                refine ih certs₂ _ hch₂ (fun f rest' hsuf id hid => ?_) (fun hl => ?_) h
                · rcases List.suffix_cons_iff.mp hsuf with heq | hsuf'
                  · cases heq
                    refine ⟨rs, hrs, ls ++ [id], ?_, ?_⟩
                    · exact PathFrom.step hpaths (hcert_children ▸ hid)
                    · simp only [List.length_append, List.length_cons, List.length_nil]
                      omega
                  · rcases List.suffix_cons_iff.mp hsuf' with heq' | hsuf''
                    · cases heq'
                      exact hstack frame rest (List.suffix_refl _) id
                        (List.mem_of_mem_dropLast hid)
                    · exact hstack f rest' (hsuf''.trans (List.suffix_cons _ _)) id hid
                · refine ⟨cert.children, frame.dropLast :: rest, rfl, ?_⟩
                  intro hcnil
                  rw [hcnil] at hemp
                  exact hemp rfl


theorem iterFrontier_nil (certs : CertMap) : ∀ k, iterFrontier certs [] k = [] := by
  intro k
  induction k with
  | zero => rfl
  | succ k ih => exact ih

theorem iterFrontier_add (certs : CertMap) :
    ∀ (a : Nat) (s : List String) (b : Nat),
      iterFrontier certs s (a + b) = iterFrontier certs (iterFrontier certs s a) b := by
  intro a
  induction a with
  | zero => intro s b; rw [Nat.zero_add]; rfl
  | succ a ih =>
    intro s b
    have harr : a + 1 + b = (a + b) + 1 := by omega
    rw [harr]
    show iterFrontier certs (s.flatMap (childrenOf certs)) (a + b) = _
    rw [ih (s.flatMap (childrenOf certs)) b]
    rfl

theorem mem_iterFrontier_succ {certs : CertMap} {b c : String} :
    ∀ {k : Nat} {s : List String}, b ∈ iterFrontier certs s k →
      c ∈ childrenOf certs b → c ∈ iterFrontier certs s (k + 1) := by
  intro k
  induction k with
  | zero =>
    intro s hb hc
    show c ∈ s.flatMap (childrenOf certs)
    exact List.mem_flatMap.mpr ⟨b, hb, hc⟩
  | succ k ih =>
    intro s hb hc
    exact ih hb hc

theorem pathFrom_mem_iterFrontier {certs : CertMap} {a : String} {l : List String}
    {n : String} (h : PathFrom certs a l n) :
    ∀ {s : List String}, a ∈ s → n ∈ iterFrontier certs s (l.length - 1) := by
  induction h with
  | refl => intro s hs; simpa using hs
  | step hp hc ih =>
    rename_i l' b' c'
    intro s hs
    have hb := ih hs
    have hstep := mem_iterFrontier_succ hb hc
    have hlen : l'.length - 1 + 1 = (l' ++ [c']).length - 1 := by
      have := pathFrom_length_pos hp
      simp only [List.length_append, List.length_cons, List.length_nil]
      omega
    rwa [hlen] at hstep

theorem pathFrom_bound_of_frontier_empty {certs : CertMap} {roots : List String}
    (hf : iterFrontier certs roots 7 = []) :
    ∀ r ∈ roots, ∀ (l : List String) (n : String), PathFrom certs r l n → l.length ≤ 7 := by
  intro r hr l n hpath
  by_contra hgt
  have hmem := pathFrom_mem_iterFrontier hpath hr
  have harr : l.length - 1 = 7 + (l.length - 8) := by omega
  rw [harr, iterFrontier_add, hf, iterFrontier_nil] at hmem
  cases hmem

theorem pathFrom_pump {certs : CertMap} {r n : String} {l lc : List String}
    (hl : PathFrom certs r l n) (hc : PathFrom certs n lc n) (hlc : 2 ≤ lc.length) :
    ∀ k, ∃ L, PathFrom certs r L n ∧ k ≤ L.length := by
  intro k
  induction k with
  | zero => exact ⟨l, hl, by omega⟩
  | succ k ihk =>
    obtain ⟨L, hL, hk⟩ := ihk
    refine ⟨L ++ lc.tail, pathFrom_trans hL hc, ?_⟩
    have hta : lc.tail.length = lc.length - 1 := by simp
    simp only [List.length_append]
    omega

/-- C5: the depth guard. (1) On a map whose children all have entries
and whose roots are known ids, the only fatal error the walk ever raises
is the "loop detected" one; (2) any input with a parent-child chain of
8 nodes out of a forest root — cyclic or not — makes normal completion
impossible for every fuel; (3) if no chain of 8 nodes leaves the roots
(the 7-fold children expansion of the roots is empty), the loop error is
never raised; (4) the concrete acyclic 8-chain raises the loop error,
while (5) the 7-chain completes normally. -/
theorem depth_guard_behavior :
    (∀ (certs : CertMap) (roots : List String) (fuel : Nat) (e : String),
      childClosed certs → (∀ r ∈ roots, (lookupCert certs r).isSome = true) →
      propagate certs roots fuel = some (.error e) → e = loopErrMsg) ∧
    (∀ (certs : CertMap) (roots : List String) (r : String) (l : List String) (n : String)
      (fuel : Nat) (certs' : CertMap),
      r ∈ roots → PathFrom certs r l n → 8 ≤ l.length →
      propagate certs roots fuel ≠ some (.ok certs')) ∧
    (∀ (certs : CertMap) (roots : List String) (fuel : Nat),
      iterFrontier certs roots 7 = [] →
      propagate certs roots fuel ≠ some (.error loopErrMsg)) ∧
    propagate (forestOf chain8Rows).cert_by_sfid (forestOf chain8Rows).cert_forest_roots 100 =
      some (.error loopErrMsg) ∧
    propagate (forestOf chain7Rows).cert_by_sfid (forestOf chain7Rows).cert_forest_roots 100 =
      some (.ok (finalOf chain7Rows 100)) := by
  refine ⟨fun certs roots fuel e hcl hroots h => ?_,
    fun certs roots r l n fuel certs' hr hpath hlen h => ?_,
    fun certs roots fuel hf h => ?_, rfl, rfl⟩
  · exact propagateAux_err_msg certs hcl fuel certs [roots] e (fun _ => rfl) (fun _ => rfl)
      (fun id hid => hroots id (by simpa using hid)) h
  · have := propagateAux_path_bound certs fuel certs [roots] certs' (fun _ => rfl) h
      roots [] (List.suffix_refl _) r hr l n hpath
    simp only [List.length_nil] at this
    omega
  · refine propagateAux_no_loop certs roots (pathFrom_bound_of_frontier_empty hf)
      fuel certs [roots] (fun _ => rfl) (fun f rest hsuf id hid => ?_) (fun hl => ?_) h
    · rcases List.suffix_cons_iff.mp hsuf with heq | hsuf'
      · cases heq
        exact ⟨id, hid, [id], PathFrom.refl id, by simp⟩
      · have := List.suffix_nil.mp hsuf'
        cases this
    · simp at hl


/-- C5 witness: the parts of `depth_guard_behavior` applied to concrete
runs — the loop error of the reachable cycle is the only error message,
the 8-node chain has an explicit 8-node path and cannot complete, and
the 7-node chain never triggers the guard. -/
theorem depth_guard_behavior_witness :
    loopErrMsg = loopErrMsg ∧
    propagate (forestOf chain8Rows).cert_by_sfid (forestOf chain8Rows).cert_forest_roots 100 ≠
      some (.ok (finalOf chain8Rows 100)) ∧
    propagate (forestOf chain7Rows).cert_by_sfid (forestOf chain7Rows).cert_forest_roots 100 ≠
      some (.error loopErrMsg) := by
  obtain ⟨p1, p2, p3, -, -⟩ := depth_guard_behavior
  refine ⟨?_, ?_, ?_⟩
  · exact p1 (forestOf chain8Rows).cert_by_sfid (forestOf chain8Rows).cert_forest_roots 100
      loopErrMsg (by unfold childClosed; decide) (by decide) rfl
  · have s0 : PathFrom (forestOf chain8Rows).cert_by_sfid "R" ["R"] "R" := PathFrom.refl "R"
    have s1 : PathFrom (forestOf chain8Rows).cert_by_sfid "R" ["R", "c1"] "c1" :=
      PathFrom.step s0 (by decide)
    have s2 : PathFrom (forestOf chain8Rows).cert_by_sfid "R" ["R", "c1", "c2"] "c2" :=
      PathFrom.step s1 (by decide)
    have s3 : PathFrom (forestOf chain8Rows).cert_by_sfid "R" ["R", "c1", "c2", "c3"] "c3" :=
      PathFrom.step s2 (by decide)
    have s4 : PathFrom (forestOf chain8Rows).cert_by_sfid "R"
        ["R", "c1", "c2", "c3", "c4"] "c4" :=
      PathFrom.step s3 (by decide)
    have s5 : PathFrom (forestOf chain8Rows).cert_by_sfid "R"
        ["R", "c1", "c2", "c3", "c4", "c5"] "c5" :=
      PathFrom.step s4 (by decide)
    have s6 : PathFrom (forestOf chain8Rows).cert_by_sfid "R"
        ["R", "c1", "c2", "c3", "c4", "c5", "c6"] "c6" :=
      PathFrom.step s5 (by decide)
    have s7 : PathFrom (forestOf chain8Rows).cert_by_sfid "R"
        ["R", "c1", "c2", "c3", "c4", "c5", "c6", "c7"] "c7" :=
      PathFrom.step s6 (by decide)
    exact p2 (forestOf chain8Rows).cert_by_sfid (forestOf chain8Rows).cert_forest_roots
      "R" ["R", "c1", "c2", "c3", "c4", "c5", "c6", "c7"] "c7" 100
      (finalOf chain8Rows 100) (by decide) s7 (by decide)
  · exact p3 (forestOf chain7Rows).cert_by_sfid (forestOf chain7Rows).cert_forest_roots 100
      (by decide)

/-! ### Claim C1 -/

/-- C1 counterexample: for the input whose edge set is exactly the cycle
(A,B), (B,C), (C,A), the hierarchy phase terminates normally — the cycle
nodes are unreachable (there are no forest roots), so the walk pops its
single empty frame and returns the map unchanged, raising nothing. -/
theorem pure_cycle_terminates_normally :
    (pass1Of cycRows).cert_forest_edges = [("A", "B"), ("B", "C"), ("C", "A")] ∧
    (forestOf cycRows).cert_forest_roots = [] ∧
    propagate (forestOf cycRows).cert_by_sfid (forestOf cycRows).cert_forest_roots 100 =
      some (.ok (finalOf cycRows 100)) :=
  ⟨rfl, rfl, rfl⟩

/-- C1 (amended): a cycle reachable from a forest root makes normal
completion of the walk impossible at every fuel (the depth guard trips
instead), and the concrete reachable cycle R → A → B → C → A raises the
fatal loop error; a cycle unreachable from every forest root — such as
the bare edge set (A,B), (B,C), (C,A) — terminates normally with no
error raised. -/
theorem cycle_detection_behavior :
    (∀ (certs : CertMap) (roots : List String) (r n : String) (l lc : List String),
      r ∈ roots → PathFrom certs r l n → PathFrom certs n lc n → 2 ≤ lc.length →
      ∀ (fuel : Nat) (certs' : CertMap), propagate certs roots fuel ≠ some (.ok certs')) ∧
    propagate (forestOf reachCycRows).cert_by_sfid
      (forestOf reachCycRows).cert_forest_roots 1000 = some (.error loopErrMsg) ∧
    propagate (forestOf cycRows).cert_by_sfid (forestOf cycRows).cert_forest_roots 100 =
      some (.ok (finalOf cycRows 100)) := by
  refine ⟨fun certs roots r n l lc hr hl hc hlc fuel certs' h => ?_, rfl, rfl⟩
  obtain ⟨L, hL, hk⟩ := pathFrom_pump hl hc hlc 8
  have := propagateAux_path_bound certs fuel certs [roots] certs' (fun _ => rfl) h
    roots [] (List.suffix_refl _) r hr L n hL
  simp only [List.length_nil] at this
  omega

/-- C1 witness: `cycle_detection_behavior` applied to the concrete input
with a root-reachable cycle R → A → B → C → A. -/
theorem cycle_detection_behavior_witness :
    propagate (forestOf reachCycRows).cert_by_sfid
      (forestOf reachCycRows).cert_forest_roots 1000 ≠
      some (.ok (finalOf reachCycRows 1000)) := by
  obtain ⟨p1, -, -⟩ := cycle_detection_behavior
  have t0 : PathFrom (forestOf reachCycRows).cert_by_sfid "R" ["R"] "R" := PathFrom.refl "R"
  have t1 : PathFrom (forestOf reachCycRows).cert_by_sfid "R" ["R", "A"] "A" :=
    PathFrom.step t0 (by decide)
  have u0 : PathFrom (forestOf reachCycRows).cert_by_sfid "A" ["A"] "A" := PathFrom.refl "A"
  have u1 : PathFrom (forestOf reachCycRows).cert_by_sfid "A" ["A", "B"] "B" :=
    PathFrom.step u0 (by decide)
  have u2 : PathFrom (forestOf reachCycRows).cert_by_sfid "A" ["A", "B", "C"] "C" :=
    PathFrom.step u1 (by decide)
  have u3 : PathFrom (forestOf reachCycRows).cert_by_sfid "A" ["A", "B", "C", "A"] "A" :=
    PathFrom.step u2 (by decide)
  exact p1 (forestOf reachCycRows).cert_by_sfid (forestOf reachCycRows).cert_forest_roots
    "R" "A" ["R", "A"] ["A", "B", "C", "A"] (by decide) t1 u3 (by decide) 1000
    (finalOf reachCycRows 1000)


/-! ### Claim C3: unique paths and the walk computes pathSpec -/

/-- Under unique parents (H1) and roots that are nobody's child (H2),
two root-to-node paths ending at the same node are equal. -/
theorem path_unique {certs₀ : CertMap} {roots : List String}
    (H1 : ∀ p₁ p₂ c, c ∈ childrenOf certs₀ p₁ → c ∈ childrenOf certs₀ p₂ → p₁ = p₂)
    (H2 : ∀ r ∈ roots, ∀ p, r ∉ childrenOf certs₀ p) :
    ∀ (N : Nat) (l₁ : List String), l₁.length ≤ N →
      ∀ {r₁ r₂ n : String} {l₂ : List String}, r₁ ∈ roots → r₂ ∈ roots →
      PathFrom certs₀ r₁ l₁ n → PathFrom certs₀ r₂ l₂ n → l₁ = l₂ := by
  intro N
  induction N with
  | zero =>
    intro l₁ hlen r₁ r₂ n l₂ hr₁ hr₂ h₁ h₂
    have := pathFrom_length_pos h₁
    omega
  | succ N ih =>
    intro l₁ hlen r₁ r₂ n l₂ hr₁ hr₂ h₁ h₂
    cases h₁ with
    | refl =>
      cases h₂ with
      | refl => rfl
      | step hp₂ hc₂ => exact absurd hc₂ (H2 _ hr₁ _)
    | step hp₁ hc₁ =>
      cases h₂ with
      | refl => exact absurd hc₁ (H2 _ hr₂ _)
      | step hp₂ hc₂ =>
        rename_i lb₁ b₁ lb₂ b₂
        have hb : b₁ = b₂ := H1 b₁ b₂ n hc₁ hc₂
        subst hb
        have hpre : lb₁ = lb₂ := by
          refine ih lb₁ ?_ hr₁ hr₂ hp₁ hp₂
          simp only [List.length_append, List.length_cons, List.length_nil] at hlen
          omega
        rw [hpre]

theorem pathSpec_singleton (certs₀ : CertMap) (n : String) :
    pathSpec certs₀ [n] = trustOf certs₀ n := rfl

theorem pathSpec_append {certs₀ : CertMap} {l : List String} (hne : l ≠ []) (c : String) :
    pathSpec certs₀ (l ++ [c]) = nodeSpecStep certs₀ (pathSpec certs₀ l) c := by
  cases l with
  | nil => exact absurd rfl hne
  | cons h t =>
    simp only [List.cons_append, pathSpec, List.foldl_append, List.foldl_cons, List.foldl_nil]

theorem foldl_nodeSpecStep_nonroot {certs₀ : CertMap} :
    ∀ (l : List String) (v : Option Bool), (∀ b ∈ l, isRootNode certs₀ b = false) →
      l.foldl (nodeSpecStep certs₀) v = v := by
  intro l
  induction l with
  | nil => intro v _; rfl
  | cons b t ih =>
    intro v hb
    simp only [List.foldl_cons]
    have hstep : nodeSpecStep certs₀ v b = v := by
      have hb' := hb b (List.mem_cons_self b t)
      cases hl : lookupCert certs₀ b with
      | none => simp only [nodeSpecStep, hl]
      | some c =>
        have hcr : c.is_root = false := by
          simpa only [isRootNode, hl] using hb'
        simp [nodeSpecStep, hl, hcr]
    rw [hstep]
    exact ih v (fun b' hb' => hb b' (by simp [hb']))

theorem nodeSpecStep_root {certs₀ : CertMap} {a : String}
    (ha : isRootNode certs₀ a = true) (v : Option Bool) :
    nodeSpecStep certs₀ v a = trustOf certs₀ a := by
  cases hl : lookupCert certs₀ a with
  | none => simp [isRootNode, hl] at ha
  | some c =>
    have hcr : c.is_root = true := by
      simpa only [isRootNode, hl] using ha
    simp [nodeSpecStep, hl, hcr, trustOf]

/-- The spec value of a path whose last root-typed node is `a`: every
non-root node after `a` just passes `a`'s own precomputed trust on. -/
theorem pathSpec_nearest_root (certs₀ : CertMap) (l₁ : List String) (a : String)
    (l₂ : List String) (ha : isRootNode certs₀ a = true)
    (hl₂ : ∀ b ∈ l₂, isRootNode certs₀ b = false) :
    pathSpec certs₀ (l₁ ++ a :: l₂) = trustOf certs₀ a := by
  cases l₁ with
  | nil =>
    simp only [List.nil_append, pathSpec]
    exact foldl_nodeSpecStep_nonroot l₂ _ hl₂
  | cons h t =>
    simp only [List.cons_append, pathSpec, List.foldl_append, List.foldl_cons]
    rw [nodeSpecStep_root ha]
    exact foldl_nodeSpecStep_nonroot l₂ _ hl₂

/-- Shape transfer through `assignChildren`. -/
theorem assignChildren_shape {cs : List String} {certs certs₂ : CertMap} {p : String}
    (hassign : assignChildren certs p cs = .ok certs₂) :
    ∀ n, (lookupCert certs₂ n).map (fun c => (c.is_root, c.children)) =
      (lookupCert certs n).map (fun c => (c.is_root, c.children)) := by
  obtain ⟨-, -, aiii, aiv⟩ := assignChildren_parts cs certs certs₂ p hassign
  intro n
  cases hl₂ : lookupCert certs₂ n with
  | none =>
    cases hl₁ : lookupCert certs n with
    | none => rfl
    | some c₁ =>
      have := aiii n
      rw [hl₂, hl₁] at this
      cases this
  | some c₂ =>
    obtain ⟨c₁, hc₁, hb, hch⟩ := aiv n c₂ hl₂
    rw [hc₁]
    simp [hb, hch]

/-- The values written by `assignChildren`: every processed child either
kept its entry because it is root-typed, or now carries the parent\'s
trust value. -/
theorem assignChildren_values :
    ∀ (cs : List String) (certs certs₂ : CertMap) (p : String) (pc : CACertificate),
      lookupCert certs p = some pc → p ∉ cs →
      assignChildren certs p cs = .ok certs₂ →
      ∀ n ∈ cs, ∃ c₂, lookupCert certs₂ n = some c₂ ∧
        ((c₂.is_root = true ∧ lookupCert certs n = some c₂) ∨
         (c₂.is_root = false ∧ c₂.is_trusted = pc.is_trusted)) := by
  intro cs
  induction cs with
  | nil => intro certs certs₂ p pc _ _ _ n hn; cases hn
  | cons ch rest ih =>
    intro certs certs₂ p pc hp hpcs h n hn
    simp only [assignChildren] at h
    cases hlc : lookupCert certs ch with
    | none => simp only [hlc] at h; cases h
    | some ccert =>
      simp only [hlc] at h
      by_cases hroot : ccert.is_root
      · rw [if_pos hroot] at h
        obtain ⟨ai, -, -, -⟩ := assignChildren_parts rest certs certs₂ p h
        by_cases hnr : n ∈ rest
        · exact ih certs certs₂ p pc hp (fun hh => hpcs (by simp [hh])) h n hnr
        · have hnc : n = ch := by
            rcases List.mem_cons.mp hn with hh | hh
            · exact hh
            · exact absurd hh hnr
          subst hnc
          exact ⟨ccert, by rw [ai n hnr]; exact hlc, Or.inl ⟨hroot, hlc⟩⟩
      · rw [if_neg hroot] at h
        cases hlp : lookupCert certs p with
        | none => simp only [hlp] at h; cases h
        | some pcert =>
          simp only [hlp] at h
          have hpc : pcert = pc := by
            rw [hp] at hlp
            exact (Option.some_inj.mp hlp).symm
          subst hpc
          have hpch : p ≠ ch := fun hh => hpcs (by simp [hh])
          have hp₁ : lookupCert (modifyCert certs ch
              (fun cc => { cc with is_trusted := pcert.is_trusted })) p = some pcert := by
            rw [lookupCert_modify_other _ _ _ _ hpch]
            exact hp
          by_cases hnr : n ∈ rest
          · obtain ⟨c₂, hc₂, hcase⟩ := ih _ certs₂ p pcert hp₁
              (fun hh => hpcs (by simp [hh])) h n hnr
            refine ⟨c₂, hc₂, ?_⟩
            rcases hcase with ⟨hb, hl⟩ | hv
            · by_cases hnc : n = ch
              · subst hnc
                rw [lookupCert_modify_self, hlc] at hl
                cases hl
                simp only at hb
                exact absurd hb (by simp [hroot])
              · rw [lookupCert_modify_other _ _ _ _ hnc] at hl
                exact Or.inl ⟨hb, hl⟩
            · exact Or.inr hv
          · have hnc : n = ch := by
              rcases List.mem_cons.mp hn with hh | hh
              · exact hh
              · exact absurd hh hnr
            subst hnc
            obtain ⟨ai, -, -, -⟩ := assignChildren_parts rest _ certs₂ p h
            refine ⟨{ ccert with is_trusted := pcert.is_trusted }, ?_, Or.inr ⟨?_, rfl⟩⟩
            · rw [ai n hnr, lookupCert_modify_self, hlc]
              rfl
            · simpa using hroot


theorem nodeSpecStep_nonroot {certs₀ : CertMap} {b : String}
    (hb : isRootNode certs₀ b = false) (v : Option Bool) :
    nodeSpecStep certs₀ v b = v := by
  cases hl : lookupCert certs₀ b with
  | none => simp only [nodeSpecStep, hl]
  | some c =>
    have hcr : c.is_root = false := by simpa only [isRootNode, hl] using hb
    simp [nodeSpecStep, hl, hcr]

/-- Pointwise consequences of shape agreement between two maps. -/
theorem shape_facts {m₁ m₂ : CertMap}
    (hs : ∀ n, (lookupCert m₁ n).map (fun c => (c.is_root, c.children)) =
      (lookupCert m₂ n).map (fun c => (c.is_root, c.children))) (n : String) :
    childrenOf m₁ n = childrenOf m₂ n ∧ isRootNode m₁ n = isRootNode m₂ n ∧
      (lookupCert m₁ n).isSome = (lookupCert m₂ n).isSome ∧
      (∀ c₁, lookupCert m₁ n = some c₁ → ∃ c₂, lookupCert m₂ n = some c₂ ∧
        c₁.is_root = c₂.is_root ∧ c₁.children = c₂.children) := by
  have h := hs n
  cases h₁ : lookupCert m₁ n with
  | none =>
    rw [h₁] at h
    cases h₂ : lookupCert m₂ n with
    | none =>
      refine ⟨by simp [childrenOf, h₁, h₂], by simp [isRootNode, h₁, h₂],
        by simp [h₁, h₂], ?_⟩
      intro c₁ hc₁
      cases hc₁
    | some c₂ => rw [h₂] at h; cases h
  | some c₁ =>
    rw [h₁] at h
    cases h₂ : lookupCert m₂ n with
    | none => rw [h₂] at h; cases h
    | some c₂ =>
      rw [h₂] at h
      simp only [Option.map] at h
      injection h with h'
      have hb : c₁.is_root = c₂.is_root := congrArg Prod.fst h'
      have hc : c₁.children = c₂.children := congrArg Prod.snd h'
      refine ⟨by simp [childrenOf, h₁, h₂, hc], by simp [isRootNode, h₁, h₂, hb],
        by simp [h₁, h₂], ?_⟩
      intro c₁' hc₁'
      injection hc₁' with he
      subst he
      exact ⟨c₂, rfl, hb, hc⟩

/-- Path uniqueness, with the length-induction scaffolding discharged. -/
theorem path_unique' {certs₀ : CertMap} {roots : List String}
    (H1 : ∀ p₁ p₂ c, c ∈ childrenOf certs₀ p₁ → c ∈ childrenOf certs₀ p₂ → p₁ = p₂)
    (H2 : ∀ r ∈ roots, ∀ p, r ∉ childrenOf certs₀ p)
    {r₁ r₂ n : String} {l₁ l₂ : List String}
    (hr₁ : r₁ ∈ roots) (hr₂ : r₂ ∈ roots)
    (h₁ : PathFrom certs₀ r₁ l₁ n) (h₂ : PathFrom certs₀ r₂ l₂ n) : l₁ = l₂ :=
  path_unique H1 H2 l₁.length l₁ (le_refl _) hr₁ hr₂ h₁ h₂

/-- Main correctness of the walk: whenever the propagation loop completes
on a stack whose entries all carry their path value already, every node
reachable from a stack entry ends with its path value, and nodes already
correct stay correct. -/
theorem propagateAux_correct (certs₀ : CertMap) (roots : List String)
    (H1 : ∀ p₁ p₂ c, c ∈ childrenOf certs₀ p₁ → c ∈ childrenOf certs₀ p₂ → p₁ = p₂)
    (H2 : ∀ r ∈ roots, ∀ p, r ∉ childrenOf certs₀ p) :
    ∀ (fuel : Nat) (certs : CertMap) (stack : List (List String)) (certs' : CertMap),
      (∀ n, (lookupCert certs n).map (fun c => (c.is_root, c.children)) =
        (lookupCert certs₀ n).map (fun c => (c.is_root, c.children))) →
      (∀ n c c₀, lookupCert certs n = some c → lookupCert certs₀ n = some c₀ →
        c.is_root = true → c.is_trusted = c₀.is_trusted) →
      (∀ id ∈ stack.flatten, ∃ r ∈ roots, ∃ lr, PathFrom certs₀ r lr id ∧
        ∃ c, lookupCert certs id = some c ∧ c.is_trusted = pathSpec certs₀ lr) →
      propagateAux fuel certs stack = some (.ok certs') →
      (∀ n, corrAt certs₀ roots certs n → corrAt certs₀ roots certs' n) ∧
      (∀ id ∈ stack.flatten, ∀ (t : List String) (m : String),
        PathFrom certs₀ id t m → corrAt certs₀ roots certs' m) := by
  intro fuel
  induction fuel with
  | zero => intro certs stack certs' _ _ _ h; cases h
  | succ fuel ih =>
    intro certs stack certs' HS RK SOK h
    cases stack with
    | nil =>
      simp only [propagateAux] at h
      cases h
      refine ⟨fun n hc => hc, ?_⟩
      intro id hid
      simp at hid
    | cons frame rest' =>
      simp only [propagateAux] at h
      by_cases hlen : (frame :: rest').length > 7
      · rw [if_pos hlen] at h; cases h
      · rw [if_neg hlen] at h
        cases hlast : frame.getLast? with
        | none =>
          simp only [hlast] at h
          have hframe_nil : frame = [] := List.getLast?_eq_none_iff.mp hlast
          have SOKr : ∀ id ∈ rest'.flatten, ∃ r ∈ roots, ∃ lr, PathFrom certs₀ r lr id ∧
              ∃ c, lookupCert certs id = some c ∧ c.is_trusted = pathSpec certs₀ lr :=
            fun id hid => SOK id (by
              rw [List.flatten_cons]; exact List.mem_append.mpr (Or.inr hid))
          obtain ⟨S', P'⟩ := ih certs rest' certs' HS RK SOKr h
          refine ⟨S', ?_⟩
          intro id hid t m hp
          rw [hframe_nil, List.flatten_cons, List.nil_append] at hid
          exact P' id hid t m hp
        | some sfid =>
          simp only [hlast] at h
          cases hlook : lookupCert certs sfid with
          | none => simp only [hlook] at h; cases h
          | some cert =>
            simp only [hlook] at h
            cases hassign : assignChildren certs sfid cert.children with
            | error e => simp only [hassign] at h; cases h
            | ok certs₂ =>
              simp only [hassign] at h
              have hch : ∀ n, childrenOf certs n = childrenOf certs₀ n :=
                fun n => (shape_facts HS n).1
              have HS₂ : ∀ n, (lookupCert certs₂ n).map (fun c => (c.is_root, c.children)) =
                  (lookupCert certs₀ n).map (fun c => (c.is_root, c.children)) :=
                fun n => (assignChildren_shape hassign n).trans (HS n)
              have hcert_children : cert.children = childrenOf certs₀ sfid := by
                rw [← hch sfid]
                simp [childrenOf, hlook]
              have hsfid_f : sfid ∈ frame := List.mem_of_mem_getLast? hlast
              have hsfid_mem : sfid ∈ (frame :: rest').flatten := by
                rw [List.flatten_cons]
                exact List.mem_append.mpr (Or.inl hsfid_f)
              obtain ⟨r_s, hr_s, l_s, hpath_s, c_s, hc_s, htrust_s⟩ := SOK sfid hsfid_mem
              have hceq : cert = c_s := by
                rw [hlook] at hc_s
                exact Option.some_inj.mp hc_s
              have htrust' : cert.is_trusted = pathSpec certs₀ l_s := by
                rw [hceq]; exact htrust_s
              have hsfid_notin : sfid ∉ cert.children := by
                intro hmem
                rw [hcert_children] at hmem
                have hpath₂ : PathFrom certs₀ r_s (l_s ++ [sfid]) sfid :=
                  PathFrom.step hpath_s hmem
                have heq := path_unique' H1 H2 hr_s hr_s hpath_s hpath₂
                have hlen' := congrArg List.length heq
                simp only [List.length_append, List.length_cons, List.length_nil] at hlen'
                omega
              have hvals := assignChildren_values cert.children certs certs₂ sfid cert
                hlook hsfid_notin hassign
              obtain ⟨ai, -, -, -⟩ := assignChildren_parts cert.children certs certs₂
                sfid hassign
              have hlsne : l_s ≠ [] := by
                intro hnil
                have := pathFrom_length_pos hpath_s
                rw [hnil] at this
                simp at this
              have CORR2 : ∀ n ∈ cert.children, corrAt certs₀ roots certs₂ n := by
                intro n hn r hr l hp
                have hn' : n ∈ childrenOf certs₀ sfid := by
                  rw [← hcert_children]; exact hn
                have hpath₂ : PathFrom certs₀ r_s (l_s ++ [n]) n :=
                  PathFrom.step hpath_s hn'
                have hleq : l = l_s ++ [n] := path_unique' H1 H2 hr hr_s hp hpath₂
                have hps : pathSpec certs₀ l =
                    nodeSpecStep certs₀ (pathSpec certs₀ l_s) n := by
                  rw [hleq]
                  exact pathSpec_append hlsne n
                obtain ⟨c₂, hc₂, hcase⟩ := hvals n hn
                rcases hcase with ⟨hb, hlc⟩ | ⟨hb, hv⟩
                · obtain ⟨-, -, -, hsome⟩ := shape_facts HS n
                  obtain ⟨c₀, hl₀, hbr, -⟩ := hsome c₂ hlc
                  have hroot₀ : isRootNode certs₀ n = true := by
                    simp [isRootNode, hl₀, ← hbr, hb]
                  have hstep : nodeSpecStep certs₀ (pathSpec certs₀ l_s) n =
                      trustOf certs₀ n := nodeSpecStep_root hroot₀ _
                  have htr : trustOf certs₀ n = c₀.is_trusted := by
                    simp [trustOf, hl₀]
                  have hRK := RK n c₂ c₀ hlc hl₀ hb
                  exact ⟨c₂, hc₂, by rw [hps, hstep, htr, hRK]⟩
                · have hbn : isRootNode certs₀ n = false := by
                    obtain ⟨-, hisr, -, -⟩ := shape_facts HS₂ n
                    rw [← hisr]
                    simp [isRootNode, hc₂, hb]
                  have hstep : nodeSpecStep certs₀ (pathSpec certs₀ l_s) n =
                      pathSpec certs₀ l_s := nodeSpecStep_nonroot hbn _
                  exact ⟨c₂, hc₂, by rw [hps, hstep, hv, htrust']⟩
              have PRESERVE : ∀ n, corrAt certs₀ roots certs n →
                  corrAt certs₀ roots certs₂ n := by
                intro n hcorr r hr l hp
                by_cases hn : n ∈ cert.children
                · exact CORR2 n hn r hr l hp
                · obtain ⟨c, hc, ht⟩ := hcorr r hr l hp
                  exact ⟨c, by rw [ai n hn]; exact hc, ht⟩
              have RK₂ : ∀ n c c₀, lookupCert certs₂ n = some c →
                  lookupCert certs₀ n = some c₀ → c.is_root = true →
                  c.is_trusted = c₀.is_trusted := by
                intro n c c₀ hc hc₀ hcr
                by_cases hn : n ∈ cert.children
                · obtain ⟨c₂, hc₂, hcase⟩ := hvals n hn
                  rw [hc] at hc₂
                  have hCeq : c₂ = c := (Option.some_inj.mp hc₂).symm
                  rw [hCeq] at hcase
                  rcases hcase with ⟨-, hlc⟩ | ⟨hb, -⟩
                  · exact RK n c c₀ hlc hc₀ hcr
                  · rw [hcr] at hb
                    cases hb
                · rw [ai n hn] at hc
                  exact RK n c c₀ hc hc₀ hcr
              have hcorr_sfid : corrAt certs₀ roots certs sfid := by
                intro r hr l hp
                have hleq : l = l_s := path_unique' H1 H2 hr hr_s hp hpath_s
                exact ⟨cert, hlook, by rw [hleq, htrust']⟩
              have SOK₂old : ∀ id, id ∈ frame.dropLast ++ rest'.flatten →
                  ∃ r ∈ roots, ∃ lr, PathFrom certs₀ r lr id ∧
                    ∃ c, lookupCert certs₂ id = some c ∧
                      c.is_trusted = pathSpec certs₀ lr := by
                intro id hid
                have hid_old : id ∈ (frame :: rest').flatten := by
                  rw [List.flatten_cons]
                  rcases List.mem_append.mp hid with hh | hh
                  · exact List.mem_append.mpr (Or.inl (List.mem_of_mem_dropLast hh))
                  · exact List.mem_append.mpr (Or.inr hh)
                obtain ⟨r, hr, lr, hpr, c, hc, ht⟩ := SOK id hid_old
                by_cases hmem : id ∈ cert.children
                · obtain ⟨c', hc', ht'⟩ := CORR2 id hmem r hr lr hpr
                  exact ⟨r, hr, lr, hpr, c', hc', ht'⟩
                · exact ⟨r, hr, lr, hpr, c, by rw [ai id hmem]; exact hc, ht⟩
              by_cases hemp : cert.children.isEmpty
              · rw [if_pos hemp] at h
                have hnil : cert.children = [] := List.isEmpty_iff.mp hemp
                have SOK₂ : ∀ id ∈ (frame.dropLast :: rest').flatten,
                    ∃ r ∈ roots, ∃ lr, PathFrom certs₀ r lr id ∧
                      ∃ c, lookupCert certs₂ id = some c ∧
                        c.is_trusted = pathSpec certs₀ lr := by
                  intro id hid
                  rw [List.flatten_cons] at hid
                  exact SOK₂old id hid
                obtain ⟨S', P'⟩ := ih certs₂ (frame.dropLast :: rest') certs' HS₂ RK₂ SOK₂ h
                refine ⟨fun n hc => S' n (PRESERVE n hc), ?_⟩
                intro id hid t m hp
                rw [List.flatten_cons] at hid
                rcases List.mem_append.mp hid with hidf | hidr
                · by_cases hids : id = sfid
                  · subst hids
                    rcases pathFrom_front hp with ⟨-, hm⟩ | ⟨c, t', -, hc, hp'⟩
                    · subst hm
                      exact S' _ (PRESERVE _ hcorr_sfid)
                    · rw [← hcert_children, hnil] at hc
                      cases hc
                  · have hid' : id ∈ frame.dropLast :=
                      mem_dropLast_of_ne_last hidf hlast hids
                    exact P' id (by
                      rw [List.flatten_cons]
                      exact List.mem_append.mpr (Or.inl hid')) t m hp
                · exact P' id (by
                    rw [List.flatten_cons]
                    exact List.mem_append.mpr (Or.inr hidr)) t m hp
              · rw [if_neg hemp] at h
                have SOK₂ : ∀ id ∈ (cert.children :: frame.dropLast :: rest').flatten,
                    ∃ r ∈ roots, ∃ lr, PathFrom certs₀ r lr id ∧
                      ∃ c, lookupCert certs₂ id = some c ∧
                        c.is_trusted = pathSpec certs₀ lr := by
                  intro id hid
                  rw [List.flatten_cons, List.flatten_cons] at hid
                  rcases List.mem_append.mp hid with hmem | hold
                  · have hn' : id ∈ childrenOf certs₀ sfid := by
                      rw [← hcert_children]; exact hmem
                    have hpath₂ : PathFrom certs₀ r_s (l_s ++ [id]) id :=
                      PathFrom.step hpath_s hn'
                    exact ⟨r_s, hr_s, l_s ++ [id], hpath₂,
                      CORR2 id hmem r_s hr_s (l_s ++ [id]) hpath₂⟩
                  · exact SOK₂old id hold
                obtain ⟨S', P'⟩ := ih certs₂ (cert.children :: frame.dropLast :: rest')
                  certs' HS₂ RK₂ SOK₂ h
                refine ⟨fun n hc => S' n (PRESERVE n hc), ?_⟩
                intro id hid t m hp
                rw [List.flatten_cons] at hid
                rcases List.mem_append.mp hid with hidf | hidr
                · by_cases hids : id = sfid
                  · subst hids
                    rcases pathFrom_front hp with ⟨-, hm⟩ | ⟨c, t', -, hc, hp'⟩
                    · subst hm
                      exact S' _ (PRESERVE _ hcorr_sfid)
                    · rw [← hcert_children] at hc
                      exact P' c (by
                        rw [List.flatten_cons]
                        exact List.mem_append.mpr (Or.inl hc)) t' m hp'
                  · have hid' : id ∈ frame.dropLast :=
                      mem_dropLast_of_ne_last hidf hlast hids
                    exact P' id (by
                      rw [List.flatten_cons, List.flatten_cons]
                      exact List.mem_append.mpr (Or.inr
                        (List.mem_append.mpr (Or.inl hid')))) t m hp
                · exact P' id (by
                    rw [List.flatten_cons, List.flatten_cons]
                    exact List.mem_append.mpr (Or.inr
                      (List.mem_append.mpr (Or.inr hidr)))) t m hp


/-- C3: For a forest whose map gives every child at most one parent, whose
forest roots are nobody's child and all have entries, a propagation run
that completes gives every node on a path from a forest root the
`pathSpec` value of that path (conjunct 1), and `pathSpec` of a path is
exactly the direct-trust value of the nearest root-typed node on it
(conjunct 2) — together: every reachable node inherits the direct trust of
its nearest root-typed ancestor, as in the claim's A,B,C/X,Y example. -/
theorem trust_from_nearest_root_ancestor :
    (∀ (certs₀ : CertMap) (roots : List String) (fuel : Nat) (certs' : CertMap),
      (∀ e₁ ∈ certs₀, ∀ e₂ ∈ certs₀, ∀ c : String,
        c ∈ e₁.2.children → c ∈ e₂.2.children → e₁.1 = e₂.1) →
      (∀ r ∈ roots, ∀ e ∈ certs₀, r ∉ e.2.children) →
      (∀ r ∈ roots, (lookupCert certs₀ r).isSome = true) →
      propagate certs₀ roots fuel = some (.ok certs') →
      ∀ r ∈ roots, ∀ (l : List String) (n : String), PathFrom certs₀ r l n →
        ∃ c, lookupCert certs' n = some c ∧ c.is_trusted = pathSpec certs₀ l) ∧
    (∀ (certs₀ : CertMap) (l₁ : List String) (a : String) (l₂ : List String),
      isRootNode certs₀ a = true → (∀ b ∈ l₂, isRootNode certs₀ b = false) →
      pathSpec certs₀ (l₁ ++ a :: l₂) = trustOf certs₀ a) := by
  constructor
  · intro certs₀ roots fuel certs' hE1 hE2 H3 hrun r hr l n hpath
    have H1 : ∀ p₁ p₂ c, c ∈ childrenOf certs₀ p₁ → c ∈ childrenOf certs₀ p₂ →
        p₁ = p₂ := by
      intro p₁ p₂ c h₁ h₂
      cases hc₁ : lookupCert certs₀ p₁ with
      | none => simp [childrenOf, hc₁] at h₁
      | some c₁ =>
        cases hc₂ : lookupCert certs₀ p₂ with
        | none => simp [childrenOf, hc₂] at h₂
        | some c₂ =>
          simp only [childrenOf, hc₁] at h₁
          simp only [childrenOf, hc₂] at h₂
          exact hE1 (p₁, c₁) (lookupCert_mem hc₁) (p₂, c₂) (lookupCert_mem hc₂) c h₁ h₂
    have H2 : ∀ rr ∈ roots, ∀ p, rr ∉ childrenOf certs₀ p := by
      intro rr hrr p hmem
      cases hc : lookupCert certs₀ p with
      | none => simp [childrenOf, hc] at hmem
      | some cp =>
        simp only [childrenOf, hc] at hmem
        exact hE2 rr hrr (p, cp) (lookupCert_mem hc) hmem
    have hrun' : propagateAux fuel certs₀ [roots] = some (.ok certs') := hrun
    have hSOK : ∀ id ∈ ([roots] : List (List String)).flatten,
        ∃ rr ∈ roots, ∃ lr, PathFrom certs₀ rr lr id ∧
          ∃ c, lookupCert certs₀ id = some c ∧ c.is_trusted = pathSpec certs₀ lr := by
      intro id hid
      have hid' : id ∈ roots := by simpa using hid
      have hsome := H3 id hid'
      cases hc : lookupCert certs₀ id with
      | none => rw [hc] at hsome; cases hsome
      | some c =>
        refine ⟨id, hid', [id], PathFrom.refl id, c, rfl, ?_⟩
        rw [pathSpec_singleton]
        simp [trustOf, hc]
    have hRK : ∀ nn c c₀, lookupCert certs₀ nn = some c →
        lookupCert certs₀ nn = some c₀ → c.is_root = true →
        c.is_trusted = c₀.is_trusted := by
      intro nn c c₀ hc hc₀ _
      rw [hc] at hc₀
      rw [Option.some_inj.mp hc₀]
    obtain ⟨-, hP⟩ := propagateAux_correct certs₀ roots H1 H2 fuel certs₀ [roots] certs'
      (fun _ => rfl) hRK hSOK hrun'
    have hmem : r ∈ ([roots] : List (List String)).flatten := by simpa using hr
    exact hP r hmem l n hpath r hr l hpath
  · intro certs₀ l₁ a l₂ ha hl₂
    exact pathSpec_nearest_root certs₀ l₁ a l₂ ha hl₂

/-- C3 counterexample: the eight-node acyclic chain P→R→c1→…→c7 — its edge
set listed explicitly — makes the walk abort with the loop error, so on
this acyclic forest no reachable node ever receives a propagated value and
the claim's universally quantified equation has no run to hold of. -/
theorem deep_forest_propagation_never_completes :
    (pass1Of chain8Rows).cert_forest_edges =
      [("P", "R"), ("R", "c1"), ("c1", "c2"), ("c2", "c3"), ("c3", "c4"),
       ("c4", "c5"), ("c5", "c6"), ("c6", "c7")] ∧
    propagate (forestOf chain8Rows).cert_by_sfid (forestOf chain8Rows).cert_forest_roots
      100 = some (.error loopErrMsg) := ⟨rfl, rfl⟩

/-- C3 witness: on the claim's example forest (roots A trusted, X
untrusted, children B, C below A and Y below X) the completed run gives
B and C the value true and Y the value false, and `pathSpec` of the path
A,B,C is A's direct trust. -/
theorem trust_from_nearest_root_ancestor_witness :
    (∃ c, lookupCert (finalOf exPropRows 100) "B" = some c ∧
      c.is_trusted = some true) ∧
    (∃ c, lookupCert (finalOf exPropRows 100) "C" = some c ∧
      c.is_trusted = some true) ∧
    (∃ c, lookupCert (finalOf exPropRows 100) "Y" = some c ∧
      c.is_trusted = some false) ∧
    pathSpec (forestOf exPropRows).cert_by_sfid ["A", "B", "C"] =
      trustOf (forestOf exPropRows).cert_by_sfid "A" := by
  obtain ⟨h1, h2⟩ := trust_from_nearest_root_ancestor
  have hBmem : "B" ∈ childrenOf (forestOf exPropRows).cert_by_sfid "A" := by decide
  have hCmem : "C" ∈ childrenOf (forestOf exPropRows).cert_by_sfid "B" := by decide
  have hYmem : "Y" ∈ childrenOf (forestOf exPropRows).cert_by_sfid "X" := by decide
  have hpB : PathFrom (forestOf exPropRows).cert_by_sfid "A" ["A", "B"] "B" :=
    PathFrom.step (PathFrom.refl "A") hBmem
  have hpC : PathFrom (forestOf exPropRows).cert_by_sfid "A" ["A", "B", "C"] "C" :=
    PathFrom.step hpB hCmem
  have hpY : PathFrom (forestOf exPropRows).cert_by_sfid "X" ["X", "Y"] "Y" :=
    PathFrom.step (PathFrom.refl "X") hYmem
  have hmain := h1 (forestOf exPropRows).cert_by_sfid
    (forestOf exPropRows).cert_forest_roots 100 (finalOf exPropRows 100)
    (by decide) (by decide) (by decide) rfl
  refine ⟨?_, ?_, ?_, ?_⟩
  · obtain ⟨c, hc, ht⟩ := hmain "A" (by decide) ["A", "B"] "B" hpB
    refine ⟨c, hc, ?_⟩
    rw [ht]
    decide
  · obtain ⟨c, hc, ht⟩ := hmain "A" (by decide) ["A", "B", "C"] "C" hpC
    refine ⟨c, hc, ?_⟩
    rw [ht]
    decide
  · obtain ⟨c, hc, ht⟩ := hmain "X" (by decide) ["X", "Y"] "Y" hpY
    refine ⟨c, hc, ?_⟩
    rw [ht]
    decide
  · exact h2 (forestOf exPropRows).cert_by_sfid [] "A" ["B", "C"] (by decide) (by decide)

end CCADB
